import Mathlib

/-!
Verification of `pre-cache/parse_index.py` against its specification.

The script is a single-pass extraction utility: it loads a rendered operator
catalog (a blob of concatenated JSON values), filters it against an
operator-selection file of `package:channel` lines, and appends the related
image references of the selected latest bundles to an output file.

The embedding below models:
* JSON values (`Json`, with integer numerals; floating point is out of scope),
* the catalog loader `load_rendered_index`, whose stream decoder
  (`json.JSONDecoder.raw_decode` from the Python standard library, not part of
  this repository) is modelled from the spec as a fueled recursive-descent
  parser returning one decoded value and the unconsumed remainder,
* Python dictionary/list primitives (`.get`, membership, negative indexing,
  `str.split`, `str.strip`, `str.join`) at the precision the script exercises,
* the extractor `extract_images`, the writer, and the `__main__` driver
  (`runMain`), with the process outcome modelled as an exit code plus the
  final content of the output file.

Fatal Python exceptions are modelled by the `Err` type; an uncaught error
makes the driver exit with status 1 and leave the output file untouched.
-/

/-- The classes of uncaught Python exception the script can raise. -/
inductive Err where
  | indexError
  | keyError
  | typeError
  | attributeError
  | jsonDecodeError
deriving DecidableEq, Repr

instance {ε α : Type} [DecidableEq ε] [DecidableEq α] : DecidableEq (Except ε α) :=
  fun x y =>
    match x, y with
    | .ok a, .ok b => if h : a = b then isTrue (by rw [h]) else isFalse (by simp [h])
    | .error a, .error b => if h : a = b then isTrue (by rw [h]) else isFalse (by simp [h])
    | .ok _, .error _ => isFalse (by simp)
    | .error _, .ok _ => isFalse (by simp)

mutual
/-- A decoded JSON value. Numerals are modelled as integers: the catalog data
the script consumes carries no fractional numbers, and floating point does not
translate to this embedding. Arrays and objects use the mutually inductive
list types so that all functions on `Json` are structurally recursive. -/
inductive Json where
  | null
  | bool (b : Bool)
  | num (n : Int)
  | str (s : String)
  | arr (elems : JsonList)
  | obj (fields : JsonFields)
deriving DecidableEq, Repr

/-- A sequence of JSON values (the payload of `Json.arr`). -/
inductive JsonList where
  | nil
  | cons (hd : Json) (tl : JsonList)
deriving DecidableEq, Repr

/-- The key/value members of a JSON object, in source order; duplicate keys
may occur textually and are resolved on lookup (last occurrence wins, as in
Python's `json` module). -/
inductive JsonFields where
  | nil
  | cons (key : String) (val : Json) (tl : JsonFields)
deriving DecidableEq, Repr
end

/-- The members of an array as a Lean list. -/
def JsonList.toList : JsonList → List Json
  | .nil => []
  | .cons x xs => x :: xs.toList

/-- The members of an object as a Lean association list. -/
def JsonFields.toList : JsonFields → List (String × Json)
  | .nil => []
  | .cons k v ms => (k, v) :: ms.toList

/-- Build an object member sequence from a Lean association list. -/
def JsonFields.ofList : List (String × Json) → JsonFields
  | [] => .nil
  | (k, v) :: ms => .cons k v (JsonFields.ofList ms)

/-- Build an array member sequence from a Lean list. -/
def JsonList.ofList : List Json → JsonList
  | [] => .nil
  | x :: xs => .cons x (JsonList.ofList xs)

/-! ### The catalog stream decoder

Modelled from the spec: the Python standard library's
`json.JSONDecoder.raw_decode` is not part of this repository, and section 4.2
of the spec describes it as a streaming/partial decoder that reads one
syntactically complete JSON value from the current position and reports how
much input it consumed.  The model is a total recursive-descent parser over a
character list, structurally recursive on an explicit fuel so that it also
evaluates inside the kernel; `rawDecode` supplies fuel that dominates the
recursion depth of any parse that can succeed, and returns the decoded value
together with the unconsumed suffix (Python's `(obj, index)` with
`index = consumed length`). -/

/-- An opening brace character (written by code point to keep brace characters
out of string literals). -/
def lbrace : Char := Char.ofNat 123

/-- A closing brace character. -/
def rbrace : Char := Char.ofNat 125

/-- The whitespace characters stripped by `str.lstrip` and permitted between
JSON tokens (space, tab, newline, carriage return). -/
def wsChar (c : Char) : Bool := c = ' ' || c = '\t' || c = '\n' || c = '\r'

/-- Drop leading whitespace (`str.lstrip`). -/
def skipWs (cs : List Char) : List Char := cs.dropWhile wsChar

/-- The numeric value of a hexadecimal digit, if `c` is one (code points
48-57 are `0`-`9`, 97-102 are `a`-`f`, 65-70 are `A`-`F`). -/
def hexVal (c : Char) : Option Nat :=
  let n := c.toNat
  if 48 ≤ n ∧ n ≤ 57 then some (n - 48)
  else if 97 ≤ n ∧ n ≤ 102 then some (n - 87)
  else if 65 ≤ n ∧ n ≤ 70 then some (n - 55)
  else none

/-- The single-character JSON escapes. -/
def escCode (e : Char) : Option Char :=
  if e = '"' then some '"'
  else if e = '\\' then some '\\'
  else if e = '/' then some '/'
  else if e = 'n' then some '\n'
  else if e = 't' then some '\t'
  else if e = 'r' then some '\r'
  else if e = 'b' then some (Char.ofNat 8)
  else if e = 'f' then some (Char.ofNat 12)
  else none

/-- Decode the body of a JSON string after its opening quote, returning the
decoded characters and the input after the closing quote. -/
def parseStringBody : List Char → Except Err (List Char × List Char)
  | [] => .error .jsonDecodeError
  | c :: rest =>
    if c = '"' then .ok ([], rest)
    else if c = '\\' then
      match rest with
      | [] => .error .jsonDecodeError
      | e :: r =>
        if e = 'u' then
          match r with
          | h1 :: h2 :: h3 :: h4 :: r2 =>
            match hexVal h1, hexVal h2, hexVal h3, hexVal h4 with
            | some a, some b, some c2, some d =>
              match parseStringBody r2 with
              | .ok (body, rr) =>
                .ok (Char.ofNat (4096 * a + 256 * b + 16 * c2 + d) :: body, rr)
              | .error err => .error err
            | _, _, _, _ => .error .jsonDecodeError
          | _ => .error .jsonDecodeError
        else
          match escCode e with
          | some c2 =>
            match parseStringBody r with
            | .ok (body, rr) => .ok (c2 :: body, rr)
            | .error err => .error err
          | none => .error .jsonDecodeError
    else
      match parseStringBody rest with
      | .ok (body, rr) => .ok (c :: body, rr)
      | .error err => .error err

/-- The numeric value of a decimal digit, if `c` is one (code points 48-57). -/
def digitVal (c : Char) : Option Nat :=
  if 48 ≤ c.toNat ∧ c.toNat ≤ 57 then some (c.toNat - 48) else none

/-- Consume a maximal run of decimal digits, folding them onto `acc`. -/
def parseDigits : List Char → Nat → Nat × List Char
  | [], acc => (acc, [])
  | c :: rest, acc =>
    match digitVal c with
    | some d => parseDigits rest (10 * acc + d)
    | none => (acc, c :: rest)

/-- Consume one-or-more decimal digits, failing on a non-digit start. -/
def parseDigitsStart (cs : List Char) : Except Err (Nat × List Char) :=
  match cs with
  | c :: _ => if (digitVal c).isSome then .ok (parseDigits cs 0) else .error .jsonDecodeError
  | [] => .error .jsonDecodeError

/-- Decode a JSON numeral (an optional minus sign and a digit run). -/
def parseNumber : List Char → Except Err (Json × List Char)
  | [] => .error .jsonDecodeError
  | c :: r =>
    if c = '-' then
      match parseDigitsStart r with
      | .ok (m, rest) => .ok (.num (-(m : Int)), rest)
      | .error e => .error e
    else
      match parseDigitsStart (c :: r) with
      | .ok (m, rest) => .ok (.num (m : Int), rest)
      | .error e => .error e

/-- Match the expected tail of a literal keyword. -/
def litTail : List Char → List Char → Option (List Char)
  | [], cs => some cs
  | l :: ls, c :: cs => if c = l then litTail ls cs else none
  | _ :: _, [] => none

/-- Decode one JSON value from the head of the input (no leading-whitespace
skipping, as in `raw_decode`), returning it with the unconsumed suffix.  The
fuel argument `f` bounds the recursion depth; parsing the tail of an array or
object re-enters the function on the input prefixed with the opening bracket,
so every recursive call takes strictly smaller fuel and the definition is
structural (hence kernel-computable). -/
def parseValue : Nat → List Char → Except Err (Json × List Char)
  | 0, _ => .error .jsonDecodeError
  | _ + 1, [] => .error .jsonDecodeError
  | f + 1, c :: rest =>
    if c = 'n' then
      match litTail ['u', 'l', 'l'] rest with
      | some r => .ok (.null, r)
      | none => .error .jsonDecodeError
    else if c = 't' then
      match litTail ['r', 'u', 'e'] rest with
      | some r => .ok (.bool true, r)
      | none => .error .jsonDecodeError
    else if c = 'f' then
      match litTail ['a', 'l', 's', 'e'] rest with
      | some r => .ok (.bool false, r)
      | none => .error .jsonDecodeError
    else if c = '"' then
      match parseStringBody rest with
      | .ok (body, r) => .ok (.str (String.mk body), r)
      | .error e => .error e
    else if c = '-' || (digitVal c).isSome then parseNumber (c :: rest)
    else if c = '[' then
      match skipWs rest with
      | [] => .error .jsonDecodeError
      | c1 :: r0 =>
        if c1 = ']' then .ok (.arr .nil, r0)
        else
          match parseValue f (c1 :: r0) with
          | .error e => .error e
          | .ok (v, r1) =>
            match skipWs r1 with
            | [] => .error .jsonDecodeError
            | c2 :: r2 =>
              if c2 = ',' then
                match parseValue f ('[' :: skipWs r2) with
                | .ok (.arr xs, r3) => .ok (.arr (.cons v xs), r3)
                | .ok _ => .error .jsonDecodeError
                | .error e => .error e
              else if c2 = ']' then .ok (.arr (.cons v .nil), r2)
              else .error .jsonDecodeError
    else if c = lbrace then
      match skipWs rest with
      | [] => .error .jsonDecodeError
      | c1 :: r0 =>
        if c1 = rbrace then .ok (.obj .nil, r0)
        else if c1 = '"' then
          match parseStringBody r0 with
          | .error e => .error e
          | .ok (key, r1) =>
            match skipWs r1 with
            | [] => .error .jsonDecodeError
            | c2 :: r2 =>
              if c2 = ':' then
               match parseValue f (skipWs r2) with
               | .error e => .error e
               | .ok (v, r3) =>
                match skipWs r3 with
                | c3 :: r4 =>
                  if c3 = ',' then
                    match parseValue f (lbrace :: skipWs r4) with
                    | .ok (.obj ms, r5) => .ok (.obj (.cons (String.mk key) v ms), r5)
                    | .ok _ => .error .jsonDecodeError
                    | .error e => .error e
                  else if c3 = rbrace then .ok (.obj (.cons (String.mk key) v .nil), r4)
                  else .error .jsonDecodeError
                | [] => .error .jsonDecodeError
              else .error .jsonDecodeError
        else .error .jsonDecodeError
    else .error .jsonDecodeError

/-- Decode one JSON value from the head of `cs` (the model of
`decoder.raw_decode(data)`): the supplied fuel exceeds any recursion depth a
successful parse of `cs` can reach, so it is never the cause of failure. -/
def rawDecode (cs : List Char) : Except Err (Json × List Char) :=
  parseValue (2 * cs.length + 2) cs

/-- The decode loop of `load_rendered_index`: while the remaining text is
nonempty, decode one value, drop it from the front, and strip leading
whitespace.  The fuel is one more than the iteration count can reach (every
successful decode consumes at least one character). -/
def loadLoop : Nat → List Char → Except Err (List Json)
  | _, [] => .ok []
  | 0, _ :: _ => .error .jsonDecodeError
  | f + 1, cs =>
    match rawDecode cs with
    | .error e => .error e
    | .ok (obj, rest) =>
      match loadLoop f (skipWs rest) with
      | .ok objs => .ok (obj :: objs)
      | .error e => .error e

/-- `load_rendered_index`, applied to the content of the fixed catalog file
`/tmp/index.json`: strip leading whitespace, then decode concatenated JSON
values one at a time until the text is exhausted. -/
def load_rendered_index (s : String) : Except Err (List Json) :=
  loadLoop (s.length + 1) (skipWs s.data)

/-! ### Python primitives used by the selection loader and extractor -/

/-- `str.strip()`: drop whitespace from both ends. -/
def pyStrip (s : String) : String :=
  String.mk (((s.data.dropWhile wsChar).reverse.dropWhile wsChar).reverse)

/-- `str.split(":")` on the underlying characters: the groups between colons,
in order; always at least one group. -/
def splitColonData : List Char → List (List Char)
  | [] => [[]]
  | c :: rest =>
    match splitColonData rest with
    | [] => [[]]
    | g :: gs => if c = ':' then [] :: g :: gs else (c :: g) :: gs

/-- `i.split(":")` for a line `i`. -/
def pySplitColon (s : String) : List String := (splitColonData s.data).map String.mk

/-- Line 30 of the source: `[i.split(":") for i in p.read().splitlines() if len(i) > 0]`.
The spec-file content is modelled as its list of lines. -/
def records (specLines : List String) : List (List String) :=
  (specLines.filter (fun i => i.length > 0)).map pySplitColon

/-- The state built by the selection loop: the `packages` list and the
`channels` dict (modelled as an insertion-ordered association list; lookups
take the most recent binding, matching Python dict assignment). -/
structure Selection where
  packages : List String
  channels : List (String × String)
deriving DecidableEq, Repr

/-- Python dict lookup in `channels`: the most recently assigned value for
key `k`, if any. -/
def chanGet (chs : List (String × String)) (k : String) : Option String :=
  match chs.reverse.find? (fun p => p.1 == k) with
  | some p => some p.2
  | none => none

/-- `channels[key]` where `key` is an arbitrary decoded value: a `KeyError`
unless `key` is a string bound in the dict. -/
def chanLookup (chs : List (String × String)) (k : Option Json) : Except Err String :=
  match k with
  | some (.str s) =>
    match chanGet chs s with
    | some v => .ok v
    | none => .error .keyError
  | _ => .error .keyError

/-- Lines 33-35 of the source: for each record, bind
`channels[item[0].strip()] = item[1].strip()` and append `item[0].strip()` to
`packages`; a record with fewer than two fields raises `IndexError` at
`item[1]`. -/
def buildGo : List (List String) → Selection → Except Err Selection
  | [], s => .ok s
  | item :: rest, s =>
    match item with
    | i0 :: i1 :: _ =>
      buildGo rest ⟨s.packages ++ [pyStrip i0], s.channels ++ [(pyStrip i0, pyStrip i1)]⟩
    | _ => .error .indexError

/-- The selection loader: fold the records into the `packages`/`channels`
state, starting from empty. -/
def buildSelection (recs : List (List String)) : Except Err Selection :=
  buildGo recs ⟨[], []⟩

/-- Object member lookup with Python `json` duplicate-key semantics: the last
occurrence of the key wins. -/
def JsonFields.getMember : JsonFields → String → Option Json
  | .nil, _ => none
  | .cons key v tl, k =>
    match JsonFields.getMember tl k with
    | some x => some x
    | none => if key = k then some v else none

/-- Python `value.get(k)`: `None`-defaulting member lookup on a dict, an
`AttributeError` on any non-dict value. -/
def Json.pyGet : Json → String → Except Err (Option Json)
  | .obj fs, k => .ok (fs.getMember k)
  | _, _ => .error .attributeError

/-- Python `x == s` for a possibly-`None` decoded value `x` and a string `s`:
true exactly when `x` is that string. -/
def eqStr (x : Option Json) (s : String) : Bool :=
  match x with
  | some (.str t) => t == s
  | _ => false

/-- Python `x in l` for a possibly-`None` decoded value and a list of
strings: true exactly when `x` is a string occurring in `l`. -/
def strMem (x : Option Json) (l : List String) : Bool :=
  match x with
  | some (.str t) => l.contains t
  | _ => false

/-- Python `v[-1]` on a possibly-`None` decoded value: the last element of a
nonempty list, the last character of a nonempty string (as a 1-character
string), `IndexError` when empty, `KeyError` on a dict (whose keys are
strings, never `-1`), and `TypeError` on anything not subscriptable. -/
def pySubLast : Option Json → Except Err Json
  | some (.arr xs) =>
    match xs.toList.getLast? with
    | some x => .ok x
    | none => .error .indexError
  | some (.str s) =>
    match s.data.getLast? with
    | some ch => .ok (.str (String.mk [ch]))
    | none => .error .indexError
  | some (.obj _) => .error .keyError
  | _ => .error .typeError

/-! ### The extractor (`extract_images`, lines 27-46) -/

/-- Lines 37-40, for one catalog object: if its `schema` is `"olm.channel"`,
its `package` is in `packages`, and its `name` equals
`channels[item.get("package")]`, produce `item.get("entries")[-1].get("name")`
(in Python's evaluation order, with each step's exception propagating). -/
def stepAItem (sel : Selection) (item : Json) : Except Err (Option (Option Json)) :=
  match item.pyGet "schema" with
  | .error e => .error e
  | .ok sv =>
    if eqStr sv "olm.channel" then
      match item.pyGet "package" with
      | .error e => .error e
      | .ok pv =>
        if strMem pv sel.packages then
          match item.pyGet "name" with
          | .error e => .error e
          | .ok nv =>
            match item.pyGet "package" with
            | .error e => .error e
            | .ok pv2 =>
              match chanLookup sel.channels pv2 with
              | .error e => .error e
              | .ok ch =>
                if eqStr nv ch then
                  match item.pyGet "entries" with
                  | .error e => .error e
                  | .ok ev =>
                    match pySubLast ev with
                    | .error e => .error e
                    | .ok le =>
                      match le.pyGet "name" with
                      | .error e => .error e
                      | .ok latest => .ok (some latest)
                else .ok none
        else .ok none
    else .ok none

/-- The first pass over the catalog objects, collecting the latest-bundle
names in iteration order. -/
def stepA (sel : Selection) : List Json → Except Err (List (Option Json))
  | [] => .ok []
  | item :: rest =>
    match stepAItem sel item with
    | .error e => .error e
    | .ok none => stepA sel rest
    | .ok (some b) =>
      match stepA sel rest with
      | .ok bs => .ok (b :: bs)
      | .error e => .error e

/-- Python iteration over the value of `relatedImages`: the elements of a
list, the 1-character strings of a string, the keys of a dict, and a
`TypeError` on anything not iterable. -/
def riIter : Option Json → Except Err (List Json)
  | some (.arr xs) => .ok xs.toList
  | some (.str s) => .ok (s.data.map (fun ch => Json.str (String.mk [ch])))
  | some (.obj fs) => .ok (fs.toList.map (fun p => Json.str p.1))
  | _ => .error .typeError

/-- `elem.get("image")` for one element of `relatedImages`. -/
def elemImage (elem : Json) : Except Err (Option Json) := elem.pyGet "image"

/-- Line 45: `[elem.get("image") for elem in item.get("relatedImages")]`. -/
def riImages (ri : Option Json) : Except Err (List (Option Json)) :=
  match riIter ri with
  | .error e => .error e
  | .ok xs => xs.mapM elemImage

/-- Lines 43-45, for one catalog object: if its `schema` is `"olm.bundle"`,
its `name` is in `bundles`, and its `package` is in `packages`, the images of
its `relatedImages`; otherwise no images. -/
def stepBItem (sel : Selection) (bundles : List (Option Json)) (item : Json) :
    Except Err (List (Option Json)) :=
  match item.pyGet "schema" with
  | .error e => .error e
  | .ok sv =>
    if eqStr sv "olm.bundle" then
      match item.pyGet "name" with
      | .error e => .error e
      | .ok nv =>
        if bundles.contains nv then
          match item.pyGet "package" with
          | .error e => .error e
          | .ok pv =>
            if strMem pv sel.packages then
              match item.pyGet "relatedImages" with
              | .error e => .error e
              | .ok ri => riImages ri
            else .ok []
        else .ok []
    else .ok []

/-- The second pass over the catalog objects, extending the image list in
iteration order. -/
def stepB (sel : Selection) (bundles : List (Option Json)) :
    List Json → Except Err (List (Option Json))
  | [] => .ok []
  | item :: rest =>
    match stepBItem sel bundles item with
    | .error e => .error e
    | .ok imgs =>
      match stepB sel bundles rest with
      | .ok more => .ok (imgs ++ more)
      | .error e => .error e

/-- `extract_images(args, objects)`: load and parse the selection file, run
the channel pass, then the bundle pass.  The spec-file content is its list of
lines. -/
def extract_images (specLines : List String) (objects : List Json) :
    Except Err (List (Option Json)) :=
  match buildSelection (records specLines) with
  | .error e => .error e
  | .ok sel =>
    match stepA sel objects with
    | .error e => .error e
    | .ok bundles => stepB sel bundles objects

/-! ### The Step B variant without the package check (for the claimed
redundancy of the package-membership test) -/

/-- Modelled from the spec: the variant bundle-matching condition the spec
calls equivalent, testing only that the bundle's `name` is in the
latest-bundle set (no package-membership conjunct). -/
def stepBItemVariant (bundles : List (Option Json)) (item : Json) :
    Except Err (List (Option Json)) :=
  match item.pyGet "schema" with
  | .error e => .error e
  | .ok sv =>
    if eqStr sv "olm.bundle" then
      match item.pyGet "name" with
      | .error e => .error e
      | .ok nv =>
        if bundles.contains nv then
          match item.pyGet "relatedImages" with
          | .error e => .error e
          | .ok ri => riImages ri
        else .ok []
    else .ok []

/-- The second pass using the variant condition. -/
def stepBVariant (bundles : List (Option Json)) :
    List Json → Except Err (List (Option Json))
  | [] => .ok []
  | item :: rest =>
    match stepBItemVariant bundles item with
    | .error e => .error e
    | .ok imgs =>
      match stepBVariant bundles rest with
      | .ok more => .ok (imgs ++ more)
      | .error e => .error e

/-- The extractor with the variant Step B (identical Step A). -/
def extract_images_variant (specLines : List String) (objects : List Json) :
    Except Err (List (Option Json)) :=
  match buildSelection (records specLines) with
  | .error e => .error e
  | .ok sel =>
    match stepA sel objects with
    | .error e => .error e
    | .ok bundles => stepBVariant bundles objects

/-! ### The writer and the driver (`__main__`, lines 62-74) -/

/-- Python `sep.join(strs)`. -/
def pyJoin (sep : String) : List String → String
  | [] => ""
  | [x] => x
  | x :: xs => x ++ sep ++ pyJoin sep xs

/-- The extracted images as Python strings; `none` models the `TypeError`
that `'\n'.join(images)` raises when some element is not a string. -/
def imagesToStrs (images : List (Option Json)) : Option (List String) :=
  images.mapM (fun x => match x with | some (Json.str s) => some s | _ => none)

/-- Lines 67-69: append `'\n'.join(images)` and then `'\n'` to the output
file opened in mode `'a'`; the file content is modelled as a string. -/
def writeImages (content : String) (strs : List String) : String :=
  content ++ pyJoin "\n" strs ++ "\n"

/-- The script's command-line inputs: the catalog export path (first
positional argument), the selection file's content (as its list of lines, the
file named by the second argument), and the current content of the output
file (named by the third argument, opened for append). -/
structure Args where
  index_download_path : String
  operators_spec_lines : List String
  img_list_file_content : String
deriving DecidableEq, Repr

/-- The `__main__` driver: load the rendered index from the fixed temporary
file (whose content is `tmpIndexJson`), extract, join, append, exit 0; on any
uncaught exception exit 1 with the output file unchanged.  The result is the
exit status paired with the final output-file content. -/
def runMain (args : Args) (tmpIndexJson : String) : Nat × String :=
  match load_rendered_index tmpIndexJson with
  | .error _ => (1, args.img_list_file_content)
  | .ok objects =>
    match extract_images args.operators_spec_lines objects with
    | .error _ => (1, args.img_list_file_content)
    | .ok images =>
      match imagesToStrs images with
      | none => (1, args.img_list_file_content)
      | some strs => (0, writeImages args.img_list_file_content strs)

/-! ### A canonical JSON rendering (the spec side of the decoding claims)

These definitions are not part of the script; they construct, for any list of
decoded values, one text blob of the kind the spec's decoding contract talks
about (each value rendered back-to-back, here with a newline separator), so
that the contract can be stated against `load_rendered_index`. -/

/-- The lower-case hexadecimal digit for `n < 16`. -/
def hexDigit (n : Nat) : Char := if n < 10 then Char.ofNat (48 + n) else Char.ofNat (87 + n)

/-- The decimal digit character for `d < 10`. -/
def digitChar (d : Nat) : Char := Char.ofNat (48 + d)

/-- One string character, JSON-escaped: quote and backslash get two-character
escapes, control characters a `\u00XX` escape, anything else stands alone. -/
def escChar (c : Char) : List Char :=
  if c = '"' then ['\\', '"']
  else if c = '\\' then ['\\', '\\']
  else if c.toNat < 32 then ['\\', 'u', '0', '0', hexDigit (c.toNat / 16), hexDigit (c.toNat % 16)]
  else [c]

/-- JSON-escape a character sequence. -/
def escList : List Char → List Char
  | [] => []
  | c :: rest => escChar c ++ escList rest

/-- The decimal digits of `n`, most significant first. -/
def natToChars (n : Nat) : List Char :=
  if n = 0 then ['0'] else (Nat.digits 10 n).reverse.map digitChar

/-- The canonical numeral of an integer. -/
def serInt (n : Int) : List Char :=
  if n < 0 then '-' :: natToChars n.natAbs else natToChars n.natAbs

mutual
/-- Render one JSON value as characters (no interior whitespace). -/
def serL : Json → List Char
  | .num n => serInt n
  | .str s => '"' :: escList s.data ++ ['"']
  | .arr xs => '[' :: serItems xs ++ [']']
  | .obj ms => lbrace :: serMembers ms ++ [rbrace]
  | .null => "null".data
  | .bool b => if b then "true".data else "false".data

/-- Render array elements, comma-separated. -/
def serItems : JsonList → List Char
  | .nil => []
  | .cons x .nil => serL x
  | .cons x (.cons y ys) => serL x ++ ',' :: serItems (.cons y ys)

/-- Render object members, comma-separated. -/
def serMembers : JsonFields → List Char
  | .nil => []
  | .cons k v .nil => '"' :: escList k.data ++ '"' :: ':' :: serL v
  | .cons k v (.cons l w ms) =>
    '"' :: escList k.data ++ '"' :: ':' :: serL v ++ ',' :: serMembers (.cons l w ms)
end

/-- The fuel `parseValue` needs on a rendered value: one step per value plus
one per array/object tail re-entry. -/
def needV : Json → Nat
  | .null | .bool _ | .num _ | .str _ => 1
  | .arr .nil => 1
  | .arr (.cons x xs) => 1 + max (needV x) (needV (.arr xs))
  | .obj .nil => 1
  | .obj (.cons _ v ms) => 1 + max (needV v) (needV (.obj ms))
termination_by v => sizeOf v
decreasing_by all_goals (simp; try omega)

/-- Whether the input starts with a decimal digit (the only way a following
value can extend the numeral just decoded). -/
def headDigit : List Char → Bool
  | [] => false
  | c :: _ => (digitVal c).isSome

/-- The separation a rendered value demands from the text after it: a
numeral must not be followed immediately by a digit; every other value is
self-delimiting. -/
def numOk : Json → List Char → Prop
  | .num _, rest => headDigit rest = false
  | _, _ => True

/-- The characters of the rendered blob: each value followed by a newline
separator. -/
def renderSeqL (vs : List Json) : List Char :=
  (vs.map (fun v => serL v ++ ['\n'])).flatten

/-- A text blob of the kind the spec's decoding contract describes: the given
values rendered in order, each followed by a newline separator. -/
def renderSeq (vs : List Json) : String :=
  String.mk (renderSeqL vs)

/-- `s` is the text of one syntactically complete JSON value decoding to `v`:
the stream decoder consumes all of `s` and returns `v`. -/
def decodesFullyTo (s : String) (v : Json) : Prop :=
  rawDecode s.data = .ok (v, [])

instance (s : String) (v : Json) : Decidable (decodesFullyTo s v) :=
  inferInstanceAs (Decidable (rawDecode s.data = .ok (v, [])))

/-! ### Concrete sample data used by witness instantiations -/

/-- A sample `olm.channel` object: package `p1`, channel `stable`, entries
`p1.v1` then `p1.v2`. -/
def sampleChannel : Json :=
  .obj (.cons "schema" (.str "olm.channel") (.cons "package" (.str "p1")
    (.cons "name" (.str "stable")
      (.cons "entries" (.arr (.cons (.obj (.cons "name" (.str "p1.v1") .nil))
        (.cons (.obj (.cons "name" (.str "p1.v2") .nil)) .nil))) .nil))))

/-- A sample `olm.bundle` object: name `p1.v2`, package `p1`, related images
`img-a` and `img-b`. -/
def sampleBundle : Json :=
  .obj (.cons "schema" (.str "olm.bundle") (.cons "name" (.str "p1.v2")
    (.cons "package" (.str "p1")
      (.cons "relatedImages" (.arr (.cons (.obj (.cons "image" (.str "img-a") .nil))
        (.cons (.obj (.cons "image" (.str "img-b") .nil)) .nil))) .nil))))

/-! ### Supporting lemmas -/

theorem foldl_str (l : List String) : ∀ s : String,
    l.foldl (fun r t => r ++ t) s = s ++ l.foldl (fun r t => r ++ t) "" := by
  induction l with
  | nil => intro s; simp
  | cons a l ih =>
    intro s
    simp only [List.foldl_cons]
    rw [ih (s ++ a), ih ("" ++ a)]
    simp [String.append_assoc]

theorem string_join_cons (a : String) (l : List String) :
    String.join (a :: l) = a ++ String.join l := by
  simp only [String.join, List.foldl_cons]
  rw [foldl_str]
  simp

theorem pyJoin_newline (x : String) (xs : List String) :
    pyJoin "\n" (x :: xs) ++ "\n" = String.join ((x :: xs).map (fun i => i ++ "\n")) := by
  induction xs generalizing x with
  | nil => simp [pyJoin, string_join_cons, String.join]
  | cons y ys ih =>
    simp only [pyJoin]
    rw [show ((x :: y :: ys).map (fun i => i ++ "\n")) =
          (x ++ "\n") :: ((y :: ys).map (fun i => i ++ "\n")) from rfl,
        string_join_cons, ← ih y]
    simp [String.append_assoc]

theorem splitColonData_no_colon : ∀ cs : List Char, ':' ∉ cs → splitColonData cs = [cs] := by
  intro cs
  induction cs with
  | nil => intro _; rfl
  | cons c rest ih =>
    intro h
    simp only [List.mem_cons, not_or] at h
    simp only [splitColonData, ih h.2]
    have : ¬ c = ':' := fun hc => h.1 (by rw [hc])
    simp [this]

theorem buildGo_short : ∀ (recs : List (List String)) (s : Selection),
    (∃ r ∈ recs, r.length < 2) → buildGo recs s = .error .indexError := by
  intro recs
  induction recs with
  | nil => rintro s ⟨r, hr, _⟩; cases hr
  | cons r rest ih =>
    rintro s ⟨r', hr', hlen⟩
    rcases List.mem_cons.mp hr' with rfl | hmem
    · match r', hlen with
      | [], _ => rfl
      | [a], _ => rfl
      | a :: b :: t, h => simp only [List.length_cons] at h; omega
    · cases r with
      | nil => rfl
      | cons i0 tl =>
        cases tl with
        | nil => rfl
        | cons i1 tl2 =>
          simp only [buildGo]
          exact ih _ ⟨r', hmem, hlen⟩

theorem chanGet_insert (chs : List (String × String)) (k v p : String) :
    chanGet (chs ++ [(k, v)]) p = if p = k then some v else chanGet chs p := by
  simp only [chanGet, List.reverse_append, List.reverse_cons, List.reverse_nil,
    List.nil_append, List.cons_append, List.find?]
  by_cases h : p = k
  · subst h; simp
  · have : (k == p) = false := by simp [Ne.symm h]
    simp [this, h]

theorem buildGo_inv : ∀ (recs : List (List String)) (s sel : Selection),
    buildGo recs s = .ok sel →
    (∀ p ∈ s.packages, (chanGet s.channels p).isSome) →
    ∀ p ∈ sel.packages, (chanGet sel.channels p).isSome := by
  intro recs
  induction recs with
  | nil =>
    intro s sel h hinv
    simp only [buildGo, Except.ok.injEq] at h
    subst h; exact hinv
  | cons r rest ih =>
    intro s sel h hinv
    cases r with
    | nil => simp [buildGo] at h
    | cons i0 tl =>
      cases tl with
      | nil => simp [buildGo] at h
      | cons i1 tl2 =>
        simp only [buildGo] at h
        refine ih _ sel h ?_
        intro p hp
        rcases List.mem_append.mp hp with hmem | hmem
        · rw [chanGet_insert]
          split
          · simp
          · exact hinv p hmem
        · simp only [List.mem_singleton] at hmem
          subst hmem
          rw [chanGet_insert]
          simp

/-! ### Claim C4: malformed-selection atomicity -/

/-- C4: a selection file with a non-empty line lacking a colon makes the run
abort with exit status 1 and leaves the output file exactly as it was: the
write happens only after extraction fully succeeds. -/
theorem C4_malformed_selection_aborts (args : Args) (tmp : String)
    (h : ∃ l ∈ args.operators_spec_lines, 0 < l.length ∧ ':' ∉ l.data) :
    runMain args tmp = (1, args.img_list_file_content) := by
  obtain ⟨l, hl, hpos, hnc⟩ := h
  have hrec : ∃ r ∈ records args.operators_spec_lines, r.length < 2 := by
    refine ⟨pySplitColon l, ?_, ?_⟩
    · simp only [records, List.mem_map]
      exact ⟨l, List.mem_filter.mpr ⟨hl, by simpa using hpos⟩, rfl⟩
    · simp [pySplitColon, splitColonData_no_colon l.data hnc]
  have hsel : buildSelection (records args.operators_spec_lines) = .error .indexError :=
    buildGo_short _ _ hrec
  have hext : ∀ objs, extract_images args.operators_spec_lines objs = .error .indexError := by
    intro objs; simp [extract_images, hsel]
  rcases hL : load_rendered_index tmp with e | objects <;> simp [runMain, hL, hext]

theorem C4_malformed_selection_aborts_w :
    (∃ l ∈ ["pkg1"], 0 < l.length ∧ ':' ∉ l.data) ∧
      runMain ⟨"/idx", ["pkg1"], "keep"⟩ "" = (1, "keep") :=
  ⟨by decide, C4_malformed_selection_aborts ⟨"/idx", ["pkg1"], "keep"⟩ "" (by decide)⟩

/-! ### Claim C6: writer output format -/

/-- C6: the writer appends the image list joined one image per line with a
trailing newline after the last entry; the empty list appends one bare
newline. -/
theorem C6_writer_one_per_line (content : String) (strs : List String) :
    (strs ≠ [] → writeImages content strs =
      content ++ String.join (strs.map (fun i => i ++ "\n"))) ∧
    writeImages content [] = content ++ "\n" := by
  constructor
  · intro hne
    match strs, hne with
    | x :: xs, _ =>
      simp only [writeImages]
      rw [String.append_assoc, pyJoin_newline]
  · simp [writeImages, pyJoin]

theorem C6_writer_one_per_line_w :
    writeImages "OLD" ["img-a", "img-b"] =
      "OLD" ++ String.join (["img-a", "img-b"].map (fun i => i ++ "\n")) :=
  (C6_writer_one_per_line "OLD" ["img-a", "img-b"]).1 (by decide)

/-! ### Claim C7: append-only output accumulation -/

/-- C7: the output file is only ever appended to: each run leaves the prior
content as an unchanged leading segment, and running the tool twice with the
same inputs appends the same image block twice (no deduplication, no
truncation). -/
theorem C7_output_append_only (args : Args) (tmp : String) :
    ∃ w, (runMain args tmp).2 = args.img_list_file_content ++ w ∧
      (runMain { args with img_list_file_content := (runMain args tmp).2 } tmp).2 =
        args.img_list_file_content ++ w ++ w := by
  rcases hL : load_rendered_index tmp with e | objects
  · exact ⟨"", by simp [runMain, hL], by simp [runMain, hL]⟩
  · rcases hE : extract_images args.operators_spec_lines objects with e | images
    · exact ⟨"", by simp [runMain, hL, hE], by simp [runMain, hL, hE]⟩
    · rcases hS : imagesToStrs images with _ | strs
      · exact ⟨"", by simp [runMain, hL, hE, hS], by simp [runMain, hL, hE, hS]⟩
      · refine ⟨pyJoin "\n" strs ++ "\n", ?_, ?_⟩ <;>
          simp [runMain, hL, hE, hS, writeImages, String.append_assoc]

/-! ### Claim C8: the catalog-path argument is never read -/

/-- C8: two runs differing only in the first positional argument (the catalog
export path) are indistinguishable: the tool reads the rendered catalog from
the fixed temporary path, so exit status and output content coincide. -/
theorem C8_catalog_path_not_read (p1 p2 : String) (lines : List String)
    (content tmp : String) :
    runMain ⟨p1, lines, content⟩ tmp = runMain ⟨p2, lines, content⟩ tmp := rfl

/-! ### Claim C9: which blank lines are skipped -/

/-- C9 counterexample: a line consisting only of whitespace is not skipped;
it aborts the selection loader with an `IndexError` (its colon-split has a
single field), unlike a line with no characters, which is skipped. -/
theorem C9_whitespace_line_errors :
    extract_images [" "] [] = .error .indexError ∧ extract_images [] [] = .ok [] := by
  decide

/-- C9 amended: a selection line with no characters is skipped: deleting it
from the selection file changes nothing about extraction. -/
theorem C9_empty_line_skipped (pre post : List String) (objects : List Json) :
    extract_images (pre ++ "" :: post) objects = extract_images (pre ++ post) objects := by
  have h : records (pre ++ "" :: post) = records (pre ++ post) := by
    simp [records, List.filter_append]
  simp only [extract_images, h]

/-! ### Claim C10: the Step A channel lookup is safe -/

/-- C10: on any selection file that loads successfully, every name in
`packages` is a key of `channels`, so the guarded `channels[package]` lookup
in Step A cannot raise `KeyError`. -/
theorem C10_selection_lookup_safe (specLines : List String) (sel : Selection)
    (h : buildSelection (records specLines) = .ok sel) :
    ∀ p ∈ sel.packages, ∃ c, chanGet sel.channels p = some c ∧
      chanLookup sel.channels (some (.str p)) = .ok c := by
  intro p hp
  have hs := buildGo_inv _ _ _ h (by intro q hq; cases hq) p hp
  rcases ho : chanGet sel.channels p with _ | c
  · rw [ho] at hs; simp at hs
  · exact ⟨c, rfl, by simp [chanLookup, ho]⟩

theorem C10_selection_lookup_safe_w :
    ∃ c, chanGet [("p1", "stable")] "p1" = some c ∧
      chanLookup [("p1", "stable")] (some (.str "p1")) = .ok c :=
  C10_selection_lookup_safe ["p1:stable"] ⟨["p1"], [("p1", "stable")]⟩ (by decide) "p1"
    (by decide)

theorem eqStr_iff (x : Option Json) (s : String) : eqStr x s = true ↔ x = some (.str s) := by
  cases x with
  | none => simp [eqStr]
  | some v => cases v <;> simp [eqStr]

theorem strMem_iff (x : Option Json) (l : List String) :
    strMem x l = true ↔ ∃ t, x = some (.str t) ∧ t ∈ l := by
  cases x with
  | none => simp [strMem]
  | some v => cases v <;> simp [strMem, List.elem_iff]

/-! ### Claim C3: the Step B package check is not redundant -/

/-- C3 counterexample: with selection `p1:stable`, a channel of package `p1`
whose latest entry is named `x`, and a bundle named `x` that belongs to the
unselected package `p2`, the extractor emits no image while the
package-check-free variant emits one, so the Step B package-membership test
is observable and not redundant. -/
theorem C3_package_check_observable :
    extract_images ["p1:stable"]
        [Json.obj (.cons "schema" (.str "olm.channel") (.cons "package" (.str "p1")
           (.cons "name" (.str "stable")
             (.cons "entries" (.arr (.cons (.obj (.cons "name" (.str "x") .nil)) .nil)) .nil)))),
         Json.obj (.cons "schema" (.str "olm.bundle") (.cons "name" (.str "x")
           (.cons "package" (.str "p2")
             (.cons "relatedImages" (.arr (.cons (.obj (.cons "image" (.str "i") .nil)) .nil))
               .nil))))] = .ok [] ∧
    extract_images_variant ["p1:stable"]
        [Json.obj (.cons "schema" (.str "olm.channel") (.cons "package" (.str "p1")
           (.cons "name" (.str "stable")
             (.cons "entries" (.arr (.cons (.obj (.cons "name" (.str "x") .nil)) .nil)) .nil)))),
         Json.obj (.cons "schema" (.str "olm.bundle") (.cons "name" (.str "x")
           (.cons "package" (.str "p2")
             (.cons "relatedImages" (.arr (.cons (.obj (.cons "image" (.str "i") .nil)) .nil))
               .nil))))] = .ok [some (.str "i")] ∧
    (Except.ok [] : Except Err (List (Option Json))) ≠ .ok [some (.str "i")] := by
  decide

theorem stepBItem_variant_eq (sel : Selection) (bundles : List (Option Json)) (item : Json)
    (hcons : ∀ nv, item.pyGet "schema" = .ok (some (.str "olm.bundle")) →
      item.pyGet "name" = .ok nv → nv ∈ bundles →
      ∀ pv, item.pyGet "package" = .ok pv → strMem pv sel.packages = true) :
    stepBItemVariant bundles item = stepBItem sel bundles item := by
  cases item with
  | obj fs =>
    simp only [stepBItemVariant, stepBItem, Json.pyGet]
    by_cases hsch : eqStr (fs.getMember "schema") "olm.bundle" = true
    · simp only [hsch, if_true]
      by_cases hcont : bundles.contains (fs.getMember "name") = true
      · have hmem : (fs.getMember "name") ∈ bundles := List.elem_iff.mp hcont
        have hp := hcons (fs.getMember "name")
          (by simp [Json.pyGet, (eqStr_iff _ _).mp hsch]) (by simp [Json.pyGet]) hmem
          (fs.getMember "package") (by simp [Json.pyGet])
        simp [hcont, hp]
      · have hnm : fs.getMember "name" ∉ bundles := fun hm => hcont (List.elem_iff.mpr hm)
        simp [hnm]
    · simp [hsch]
  | null => rfl
  | bool b => rfl
  | num n => rfl
  | str s => rfl
  | arr xs => rfl

theorem stepB_variant_eq (sel : Selection) (bundles : List (Option Json)) :
    ∀ objects : List Json,
    (∀ b ∈ objects, ∀ nv, b.pyGet "schema" = .ok (some (.str "olm.bundle")) →
      b.pyGet "name" = .ok nv → nv ∈ bundles →
      ∀ pv, b.pyGet "package" = .ok pv → strMem pv sel.packages = true) →
    stepBVariant bundles objects = stepB sel bundles objects := by
  intro objects
  induction objects with
  | nil => intro _; rfl
  | cons item rest ih =>
    intro hcons
    simp only [stepBVariant, stepB,
      stepBItem_variant_eq sel bundles item (hcons item (List.mem_cons_self _ _)),
      ih (fun b hb => hcons b (List.mem_cons_of_mem _ hb))]

/-- C3 amended: the variant extractor that drops the Step B package test
agrees with the real one only under the extra consistency hypothesis that
every `olm.bundle` object whose name reached the latest-bundle set has a
selected package; without that hypothesis the two differ (see the
counterexample), so the check must be preserved. -/
theorem C3_package_check_redundant_if_consistent (specLines : List String)
    (objects : List Json) (sel : Selection) (bundles : List (Option Json))
    (hsel : buildSelection (records specLines) = .ok sel)
    (hA : stepA sel objects = .ok bundles)
    (hcons : ∀ b ∈ objects, ∀ nv, b.pyGet "schema" = .ok (some (.str "olm.bundle")) →
      b.pyGet "name" = .ok nv → nv ∈ bundles →
      ∀ pv, b.pyGet "package" = .ok pv → strMem pv sel.packages = true) :
    extract_images_variant specLines objects = extract_images specLines objects := by
  simp only [extract_images_variant, extract_images, hsel, hA]
  exact stepB_variant_eq sel bundles objects hcons

theorem C3_package_check_redundant_if_consistent_w :
    extract_images_variant ["p1:stable"] [sampleChannel, sampleBundle] =
      extract_images ["p1:stable"] [sampleChannel, sampleBundle] :=
  C3_package_check_redundant_if_consistent ["p1:stable"] [sampleChannel, sampleBundle]
    ⟨["p1"], [("p1", "stable")]⟩ [some (.str "p1.v2")] (by decide) (by decide)
    (by
      intro b hb nv hsch hname hnv pv hpv
      rcases List.mem_cons.mp hb with rfl | hb
      · exact absurd hsch (by decide)
      · rcases List.mem_cons.mp hb with rfl | hb
        · have hpv' : Except.ok (ε := Err) (some (Json.str "p1")) = Except.ok pv := hpv
          have hpveq : some (Json.str "p1") = pv := by
            injection hpv'
          subst hpveq
          decide
        · cases hb)

theorem stepA_extend_err (sel : Selection) (c : Json) (e : Err) (post : List Json) :
    ∀ (pre : List Json) (bs : List (Option Json)), stepA sel pre = .ok bs →
    stepAItem sel c = .error e → stepA sel (pre ++ c :: post) = .error e := by
  intro pre
  induction pre with
  | nil => intro bs _ hc; simp only [List.nil_append, stepA, hc]
  | cons p pre ih =>
    intro bs h hc
    simp only [stepA, List.cons_append] at h ⊢
    cases hp : stepAItem sel p with
    | error e' => rw [hp] at h; exact absurd h (by simp)
    | ok o =>
      rw [hp] at h
      cases o with
      | none => exact ih _ h hc
      | some b =>
        cases hr : stepA sel pre with
        | error e' => rw [hr] at h; exact absurd h (by simp)
        | ok bs' => simp [ih bs' hr hc]

/-! ### Claim C5: a matched channel with empty entries is fatal -/

/-- C5: when the catalog contains an `olm.channel` object matching a
selection entry whose `entries` sequence is empty, and Step A reaches it
without an earlier error, the extractor raises the out-of-range `IndexError`
of `entries[-1]`, and the run exits with status 1 leaving the output file
untouched: no recovery, no skipping. -/
theorem C5_empty_entries_fatal (args : Args) (tmp : String) (pre post : List Json)
    (c : Json) (sel : Selection) (bs : List (Option Json)) (p cname : String)
    (hload : load_rendered_index tmp = .ok (pre ++ c :: post))
    (hsel : buildSelection (records args.operators_spec_lines) = .ok sel)
    (hpre : stepA sel pre = .ok bs)
    (hschema : c.pyGet "schema" = .ok (some (.str "olm.channel")))
    (hpkg : c.pyGet "package" = .ok (some (.str p)))
    (hpmem : p ∈ sel.packages)
    (hchan : chanGet sel.channels p = some cname)
    (hname : c.pyGet "name" = .ok (some (.str cname)))
    (hentries : c.pyGet "entries" = .ok (some (.arr .nil))) :
    extract_images args.operators_spec_lines (pre ++ c :: post) = .error .indexError ∧
    runMain args tmp = (1, args.img_list_file_content) := by
  have hsm : strMem (some (Json.str p)) sel.packages = true :=
    (strMem_iff _ _).mpr ⟨p, rfl, hpmem⟩
  have hitem : stepAItem sel c = .error .indexError := by
    simp only [stepAItem, hschema, hpkg, hname, hentries]
    simp [eqStr, hsm, chanLookup, hchan, pySubLast, JsonList.toList]
  have hext : extract_images args.operators_spec_lines (pre ++ c :: post) =
      .error .indexError := by
    simp only [extract_images, hsel, stepA_extend_err sel c _ post pre bs hpre hitem]
  exact ⟨hext, by simp [runMain, hload, hext]⟩

theorem C5_empty_entries_fatal_w :
    extract_images ["p1:stable"]
        [Json.obj (.cons "schema" (.str "olm.channel") (.cons "package" (.str "p1")
          (.cons "name" (.str "stable") (.cons "entries" (.arr .nil) .nil))))] =
      .error .indexError ∧
    runMain ⟨"/idx", ["p1:stable"], "prior\n"⟩
        "\x7b\"schema\":\"olm.channel\",\"package\":\"p1\",\"name\":\"stable\",\"entries\":[]\x7d" =
      (1, "prior\n") :=
  C5_empty_entries_fatal ⟨"/idx", ["p1:stable"], "prior\n"⟩
    "\x7b\"schema\":\"olm.channel\",\"package\":\"p1\",\"name\":\"stable\",\"entries\":[]\x7d"
    [] []
    (Json.obj (.cons "schema" (.str "olm.channel") (.cons "package" (.str "p1")
      (.cons "name" (.str "stable") (.cons "entries" (.arr .nil) .nil)))))
    ⟨["p1"], [("p1", "stable")]⟩ [] "p1" "stable"
    (by decide) (by decide) (by decide) (by decide) (by decide) (by decide)
    (by decide) (by decide) (by decide)

theorem mapM_except_mem {α β : Type} (f : α → Except Err β) :
    ∀ (src : List α) (out : List β), src.mapM f = .ok out →
    ∀ y ∈ out, ∃ x, x ∈ src ∧ f x = .ok y := by
  intro xs
  induction xs with
  | nil =>
    intro ys h y hy
    simp only [List.mapM_nil, pure, Except.pure, Except.ok.injEq] at h
    subst h; cases hy
  | cons x xs ih =>
    intro ys h y hy
    rw [List.mapM_cons] at h
    cases hfx : f x with
    | error e => rw [hfx] at h; simp [Bind.bind, Except.bind] at h
    | ok b =>
      rw [hfx] at h
      cases hm : xs.mapM f with
      | error e => rw [hm] at h; simp [Bind.bind, Except.bind] at h
      | ok bs =>
        rw [hm] at h
        simp only [Bind.bind, Except.bind, pure, Except.pure, Except.ok.injEq] at h
        subst h
        rcases List.mem_cons.mp hy with rfl | hy
        · exact ⟨x, List.mem_cons_self _ _, hfx⟩
        · obtain ⟨x', hx', hfx'⟩ := ih bs hm y hy
          exact ⟨x', List.mem_cons_of_mem _ hx', hfx'⟩

theorem stepA_mem (sel : Selection) : ∀ (objs : List Json) (bs : List (Option Json)),
    stepA sel objs = .ok bs → ∀ b ∈ bs, ∃ ch ∈ objs, stepAItem sel ch = .ok (some b) := by
  intro objs
  induction objs with
  | nil =>
    intro bs h b hb
    simp only [stepA, Except.ok.injEq] at h
    subst h; cases hb
  | cons item rest ih =>
    intro bs h b hb
    simp only [stepA] at h
    cases hi : stepAItem sel item with
    | error e => rw [hi] at h; exact absurd h (by simp)
    | ok o =>
      rw [hi] at h
      cases o with
      | none =>
        obtain ⟨ch, hch, hc⟩ := ih bs h b hb
        exact ⟨ch, List.mem_cons_of_mem _ hch, hc⟩
      | some b0 =>
        cases hr : stepA sel rest with
        | error e => rw [hr] at h; exact absurd h (by simp)
        | ok bs' =>
          rw [hr] at h
          simp only [Except.ok.injEq] at h
          subst h
          rcases List.mem_cons.mp hb with rfl | hb
          · exact ⟨item, List.mem_cons_self _ _, hi⟩
          · obtain ⟨ch, hch, hc⟩ := ih bs' hr b hb
            exact ⟨ch, List.mem_cons_of_mem _ hch, hc⟩

theorem stepB_mem (sel : Selection) (bundles : List (Option Json)) :
    ∀ (objs : List Json) (images : List (Option Json)),
    stepB sel bundles objs = .ok images → ∀ img ∈ images,
    ∃ b ∈ objs, ∃ imgs, stepBItem sel bundles b = .ok imgs ∧ img ∈ imgs := by
  intro objs
  induction objs with
  | nil =>
    intro images h img himg
    simp only [stepB, Except.ok.injEq] at h
    subst h; cases himg
  | cons item rest ih =>
    intro images h img himg
    simp only [stepB] at h
    cases hi : stepBItem sel bundles item with
    | error e => rw [hi] at h; exact absurd h (by simp)
    | ok imgs0 =>
      rw [hi] at h
      cases hr : stepB sel bundles rest with
      | error e => rw [hr] at h; exact absurd h (by simp)
      | ok more =>
        rw [hr] at h
        simp only [Except.ok.injEq] at h
        subst h
        rcases List.mem_append.mp himg with hm | hm
        · exact ⟨item, List.mem_cons_self _ _, imgs0, hi, hm⟩
        · obtain ⟨b, hb, imgs, hbi, hmem⟩ := ih more hr img hm
          exact ⟨b, List.mem_cons_of_mem _ hb, imgs, hbi, hmem⟩

theorem pyGet_obj (fs : JsonFields) (k : String) :
    (Json.obj fs).pyGet k = .ok (fs.getMember k) := rfl

theorem stepAItem_some_inv (sel : Selection) (ch : Json) (latest : Option Json)
    (h : stepAItem sel ch = .ok (some latest)) :
    ch.pyGet "schema" = .ok (some (.str "olm.channel")) ∧
    ∃ q cname ev le, ch.pyGet "package" = .ok (some (.str q)) ∧ q ∈ sel.packages ∧
      chanGet sel.channels q = some cname ∧ ch.pyGet "name" = .ok (some (.str cname)) ∧
      ch.pyGet "entries" = .ok ev ∧ pySubLast ev = .ok le ∧ le.pyGet "name" = .ok latest := by
  cases ch with
  | null => simp [stepAItem, Json.pyGet] at h
  | bool b => simp [stepAItem, Json.pyGet] at h
  | num n => simp [stepAItem, Json.pyGet] at h
  | str s => simp [stepAItem, Json.pyGet] at h
  | arr xs => simp [stepAItem, Json.pyGet] at h
  | obj fs =>
    simp only [stepAItem, pyGet_obj] at h
    by_cases h1 : eqStr (fs.getMember "schema") "olm.channel" = true
    swap
    · simp [h1] at h
    by_cases h2 : strMem (fs.getMember "package") sel.packages = true
    swap
    · simp [h1, h2] at h
    simp only [h1, h2, if_true] at h
    cases hcl : chanLookup sel.channels (fs.getMember "package") with
    | error e => rw [hcl] at h; exact absurd h (by simp)
    | ok cname =>
      rw [hcl] at h
      by_cases h3 : eqStr (fs.getMember "name") cname = true
      swap
      · simp [h3] at h
      simp only [h3, if_true] at h
      cases hsub : pySubLast (fs.getMember "entries") with
      | error e => rw [hsub] at h; exact absurd h (by simp)
      | ok le =>
        rw [hsub] at h
        dsimp only at h
        cases hn : le.pyGet "name" with
        | error e => rw [hn] at h; exact absurd h (by simp)
        | ok lv =>
          rw [hn] at h
          simp only [Except.ok.injEq, Option.some.injEq] at h
          subst h
          obtain ⟨q, hq, hqmem⟩ := (strMem_iff _ _).mp h2
          rw [hq] at hcl
          simp only [chanLookup] at hcl
          cases hcg : chanGet sel.channels q with
          | none => rw [hcg] at hcl; exact absurd hcl (by simp)
          | some cval =>
            rw [hcg] at hcl
            simp only [Except.ok.injEq] at hcl
            subst hcl
            refine ⟨by simp [Json.pyGet, (eqStr_iff _ _).mp h1],
              q, cval, fs.getMember "entries", le, ?_, hqmem, hcg, ?_, rfl, hsub, hn⟩
            · simp [Json.pyGet, hq]
            · simp [Json.pyGet, (eqStr_iff _ _).mp h3]

theorem stepBItem_inv (sel : Selection) (bundles : List (Option Json)) (b : Json)
    (imgs : List (Option Json)) (img : Option Json)
    (h : stepBItem sel bundles b = .ok imgs) (hmem : img ∈ imgs) :
    b.pyGet "schema" = .ok (some (.str "olm.bundle")) ∧
    ∃ nv, b.pyGet "name" = .ok nv ∧ nv ∈ bundles ∧
    (∃ p, b.pyGet "package" = .ok (some (.str p)) ∧ p ∈ sel.packages) ∧
    ∃ ri xs, b.pyGet "relatedImages" = .ok ri ∧ riIter ri = .ok xs ∧
      ∃ e ∈ xs, elemImage e = .ok img := by
  cases b with
  | null => simp [stepBItem, Json.pyGet] at h
  | bool x => simp [stepBItem, Json.pyGet] at h
  | num n => simp [stepBItem, Json.pyGet] at h
  | str s => simp [stepBItem, Json.pyGet] at h
  | arr xs => simp [stepBItem, Json.pyGet] at h
  | obj fs =>
    simp only [stepBItem, Json.pyGet] at h
    by_cases h1 : eqStr (fs.getMember "schema") "olm.bundle" = true
    swap
    · simp only [h1, if_false, Bool.false_eq_true, Except.ok.injEq] at h
      subst h; cases hmem
    by_cases h2 : bundles.contains (fs.getMember "name") = true
    swap
    · simp only [h1, h2, if_true, if_false, Bool.false_eq_true, Except.ok.injEq] at h
      subst h; cases hmem
    by_cases h3 : strMem (fs.getMember "package") sel.packages = true
    swap
    · simp only [h1, h2, h3, if_true, if_false, Bool.false_eq_true, Except.ok.injEq] at h
      subst h; cases hmem
    simp only [h1, h2, h3, if_true] at h
    simp only [riImages] at h
    cases hit : riIter (fs.getMember "relatedImages") with
    | error e => rw [hit] at h; exact absurd h (by simp)
    | ok xs =>
      rw [hit] at h
      obtain ⟨e, he, hei⟩ := mapM_except_mem elemImage xs imgs h img hmem
      obtain ⟨p, hp, hpm⟩ := (strMem_iff _ _).mp h3
      exact ⟨by simp [Json.pyGet, (eqStr_iff _ _).mp h1],
        fs.getMember "name", by simp [Json.pyGet], List.elem_iff.mp h2,
        ⟨p, by simp [Json.pyGet, hp], hpm⟩,
        fs.getMember "relatedImages", xs, by simp [Json.pyGet], hit, e, he, hei⟩

/-! ### Claim C1: extractor soundness -/

/-- C1: every image the extractor produces comes from the `relatedImages` of
an `olm.bundle` object whose package is selected and whose name equals the
name of the last entry of some `olm.channel` object matching a selection
entry (its package is a selected key and its name is that package's selected
channel). -/
theorem C1_extractor_sound (specLines : List String) (objects : List Json)
    (sel : Selection) (images : List (Option Json))
    (hsel : buildSelection (records specLines) = .ok sel)
    (hext : extract_images specLines objects = .ok images) :
    ∀ img ∈ images, ∃ b ∈ objects,
      b.pyGet "schema" = .ok (some (.str "olm.bundle")) ∧
      (∃ p, b.pyGet "package" = .ok (some (.str p)) ∧ p ∈ sel.packages) ∧
      (∃ ri xs, b.pyGet "relatedImages" = .ok ri ∧ riIter ri = .ok xs ∧
        ∃ e ∈ xs, elemImage e = .ok img) ∧
      ∃ nv, b.pyGet "name" = .ok nv ∧
        ∃ ch ∈ objects, ch.pyGet "schema" = .ok (some (.str "olm.channel")) ∧
          ∃ q cname, ch.pyGet "package" = .ok (some (.str q)) ∧ q ∈ sel.packages ∧
            chanGet sel.channels q = some cname ∧
            ch.pyGet "name" = .ok (some (.str cname)) ∧
            ∃ ev le, ch.pyGet "entries" = .ok ev ∧ pySubLast ev = .ok le ∧
              le.pyGet "name" = .ok nv := by
  intro img himg
  simp only [extract_images, hsel] at hext
  cases hA : stepA sel objects with
  | error e => rw [hA] at hext; exact absurd hext (by simp)
  | ok bundles =>
    rw [hA] at hext
    obtain ⟨b, hb, imgs, hbi, himgmem⟩ := stepB_mem sel bundles objects images hext img himg
    obtain ⟨hschema, nv, hname, hnv, hpkg, ri, xs, hri, hit, e, he, hei⟩ :=
      stepBItem_inv sel bundles b imgs img hbi himgmem
    obtain ⟨ch, hch, hchitem⟩ := stepA_mem sel objects bundles hA nv hnv
    obtain ⟨hchs, q, cname, ev, le, hchp, hqmem, hcg, hchn, hche, hsub, hlen⟩ :=
      stepAItem_some_inv sel ch nv hchitem
    exact ⟨b, hb, hschema, hpkg, ⟨ri, xs, hri, hit, e, he, hei⟩, nv, hname,
      ch, hch, hchs, q, cname, hchp, hqmem, hcg, hchn, ev, le, hche, hsub, hlen⟩

theorem C1_extractor_sound_w :
    ∃ b ∈ [sampleChannel, sampleBundle],
      b.pyGet "schema" = .ok (some (.str "olm.bundle")) ∧
      (∃ p, b.pyGet "package" = .ok (some (.str p)) ∧
        p ∈ (Selection.mk ["p1"] [("p1", "stable")]).packages) ∧
      (∃ ri xs, b.pyGet "relatedImages" = .ok ri ∧ riIter ri = .ok xs ∧
        ∃ e ∈ xs, elemImage e = .ok (some (.str "img-a"))) ∧
      ∃ nv, b.pyGet "name" = .ok nv ∧
        ∃ ch ∈ [sampleChannel, sampleBundle],
          ch.pyGet "schema" = .ok (some (.str "olm.channel")) ∧
          ∃ q cname, ch.pyGet "package" = .ok (some (.str q)) ∧
            q ∈ (Selection.mk ["p1"] [("p1", "stable")]).packages ∧
            chanGet (Selection.mk ["p1"] [("p1", "stable")]).channels q = some cname ∧
            ch.pyGet "name" = .ok (some (.str cname)) ∧
            ∃ ev le, ch.pyGet "entries" = .ok ev ∧ pySubLast ev = .ok le ∧
              le.pyGet "name" = .ok nv :=
  C1_extractor_sound ["p1:stable"] [sampleChannel, sampleBundle]
    ⟨["p1"], [("p1", "stable")]⟩ [some (.str "img-a"), some (.str "img-b")]
    (by decide) (by decide) (some (.str "img-a")) (by decide)

/-! ### Decoding the canonical rendering: character-level lemmas -/

theorem digitChar_facts : ∀ d, d < 10 →
    digitVal (digitChar d) = some d ∧ wsChar (digitChar d) = false ∧
    digitChar d ≠ 'n' ∧ digitChar d ≠ 't' ∧ digitChar d ≠ 'f' ∧ digitChar d ≠ '"' ∧
    digitChar d ≠ '-' ∧ digitChar d ≠ '[' ∧ digitChar d ≠ lbrace ∧
    digitChar d ≠ ']' ∧ digitChar d ≠ ',' := by decide

theorem hexDigit_round : ∀ n, n < 16 → hexVal (hexDigit n) = some n := by decide

theorem parseStringBody_esc : ∀ (l rest : List Char),
    parseStringBody (escList l ++ '"' :: rest) = .ok (l, rest) := by
  intro l
  induction l with
  | nil =>
    intro rest
    simp only [escList, List.nil_append]
    rw [parseStringBody.eq_def]
    simp
  | cons c t ih =>
    intro rest
    by_cases hq : c = '"'
    · subst hq
      have hlist : escList ('"' :: t) ++ '"' :: rest =
          '\\' :: '"' :: (escList t ++ '"' :: rest) := by
        simp [escList, escChar]
      rw [hlist, parseStringBody.eq_def]
      simp [escCode, ih]
    · by_cases hb : c = '\\'
      · subst hb
        have hlist : escList ('\\' :: t) ++ '"' :: rest =
            '\\' :: '\\' :: (escList t ++ '"' :: rest) := by
          simp [escList, escChar]
        rw [hlist, parseStringBody.eq_def]
        simp [escCode, ih]
      · by_cases hc : c.toNat < 32
        · have h0 : hexVal '0' = some 0 := by decide
          have h1 : hexVal (hexDigit (c.toNat / 16)) = some (c.toNat / 16) :=
            hexDigit_round _ (by omega)
          have h2 : hexVal (hexDigit (c.toNat % 16)) = some (c.toNat % 16) :=
            hexDigit_round _ (Nat.mod_lt _ (by norm_num))
          have hlist : escList (c :: t) ++ '"' :: rest =
              '\\' :: 'u' :: '0' :: '0' :: hexDigit (c.toNat / 16) ::
                hexDigit (c.toNat % 16) :: (escList t ++ '"' :: rest) := by
            simp [escList, escChar, hq, hb, hc]
          rw [hlist, parseStringBody.eq_def]
          simp [h0, h1, h2, ih]
          rw [show 16 * (c.toNat / 16) + c.toNat % 16 = c.toNat by omega, Char.ofNat_toNat]
        · have hlist : escList (c :: t) ++ '"' :: rest = c :: (escList t ++ '"' :: rest) := by
            simp [escList, escChar, hq, hb, hc]
          rw [hlist, parseStringBody.eq_def]
          simp [hq, hb, ih]

theorem parseDigits_digits : ∀ (ds : List Nat) (rest : List Char) (acc : Nat),
    (∀ d ∈ ds, d < 10) → headDigit rest = false →
    parseDigits (ds.map digitChar ++ rest) acc =
      (ds.foldl (fun a d => 10 * a + d) acc, rest) := by
  intro ds
  induction ds with
  | nil =>
    intro rest acc _ hrest
    cases rest with
    | nil => rfl
    | cons c r =>
      have hnone : digitVal c = none := by
        simp only [headDigit] at hrest
        exact Option.not_isSome_iff_eq_none.mp (by simp [hrest])
      simp only [List.map_nil, List.nil_append, List.foldl_nil]
      rw [parseDigits.eq_def]
      simp [hnone]
  | cons d ds ih =>
    intro rest acc hds hrest
    have hd : d < 10 := hds d (List.mem_cons_self _ _)
    have hdig : digitVal (digitChar d) = some d := (digitChar_facts d hd).1
    simp only [List.map_cons, List.cons_append, List.foldl_cons]
    rw [parseDigits.eq_def]
    simp only [hdig]
    exact ih rest (10 * acc + d) (fun x hx => hds x (List.mem_cons_of_mem _ hx)) hrest

theorem foldl_digits_ofDigits : ∀ L : List Nat,
    L.reverse.foldl (fun a d => 10 * a + d) 0 = Nat.ofDigits 10 L := by
  intro L
  induction L with
  | nil => simp [Nat.ofDigits]
  | cons d L ih =>
    simp only [List.reverse_cons, List.foldl_append, List.foldl_cons, List.foldl_nil, ih,
      Nat.ofDigits_cons]
    omega

theorem natToChars_spec : ∀ (n : Nat) (rest : List Char), headDigit rest = false →
    parseDigits (natToChars n ++ rest) 0 = (n, rest) := by
  intro n rest hrest
  by_cases hn : n = 0
  · subst hn
    have h1 : natToChars 0 = [0].map digitChar := by decide
    rw [h1, parseDigits_digits [0] rest 0 (by norm_num) hrest]
    rfl
  · have h1 : natToChars n = ((Nat.digits 10 n).reverse).map digitChar := by
      simp [natToChars, hn]
    have hlt : ∀ d ∈ (Nat.digits 10 n).reverse, d < 10 := by
      intro d hd
      exact Nat.digits_lt_base (by norm_num) (List.mem_reverse.mp hd)
    rw [h1, parseDigits_digits _ rest 0 hlt hrest, foldl_digits_ofDigits,
      Nat.ofDigits_digits]

theorem natToChars_head : ∀ n : Nat, ∃ d t, natToChars n = digitChar d :: t ∧ d < 10 := by
  intro n
  by_cases hn : n = 0
  · subst hn
    refine ⟨0, [], by decide, by norm_num⟩
  · have hne : (Nat.digits 10 n).reverse ≠ [] := by
      simp [Nat.digits_ne_nil_iff_ne_zero.mpr hn]
    obtain ⟨d, t', ht⟩ := List.exists_cons_of_ne_nil hne
    have hd : d < 10 := by
      have : d ∈ (Nat.digits 10 n).reverse := by rw [ht]; exact List.mem_cons_self _ _
      exact Nat.digits_lt_base (by norm_num) (List.mem_reverse.mp this)
    refine ⟨d, t'.map digitChar, ?_, hd⟩
    simp [natToChars, hn, ht]

theorem parseNumber_serInt : ∀ (n : Int) (rest : List Char), headDigit rest = false →
    parseNumber (serInt n ++ rest) = .ok (.num n, rest) := by
  intro n rest hrest
  obtain ⟨d, t, hnat, hd⟩ := natToChars_head n.natAbs
  have hsplit : natToChars n.natAbs ++ rest = digitChar d :: (t ++ rest) := by
    rw [hnat]; simp
  have hstart : parseDigitsStart (natToChars n.natAbs ++ rest) = .ok (n.natAbs, rest) := by
    rw [parseDigitsStart.eq_def, hsplit]
    simp only [(digitChar_facts d hd).1, Option.isSome_some, if_true]
    rw [← hsplit, natToChars_spec n.natAbs rest hrest]
  by_cases hn : n < 0
  · have hser : serInt n = '-' :: natToChars n.natAbs := by simp [serInt, hn]
    rw [hser]
    rw [show ('-' :: natToChars n.natAbs) ++ rest = '-' :: (natToChars n.natAbs ++ rest) by
      simp]
    rw [parseNumber.eq_def]
    simp only [if_pos rfl, hstart]
    have : -(n.natAbs : Int) = n := by omega
    rw [this]
    simp
  · have hser : serInt n = natToChars n.natAbs := by simp [serInt, hn]
    rw [hser, hsplit, parseNumber.eq_def]
    have hnd : ¬ digitChar d = '-' := (digitChar_facts d hd).2.2.2.2.2.2.1
    simp only [hnd, if_false]
    rw [← hsplit]
    simp only [hstart]
    have : (n.natAbs : Int) = n := by omega
    rw [this]

theorem skipWs_cons_not (c : Char) (t : List Char) (h : wsChar c = false) :
    skipWs (c :: t) = c :: t := by
  simp [skipWs, List.dropWhile_cons, h]

theorem serL_head : ∀ v : Json, ∃ c t, serL v = c :: t ∧ wsChar c = false ∧
    c ≠ ']' ∧ c ≠ ',' := by
  intro v
  cases v with
  | null => exact ⟨'n', ['u', 'l', 'l'], by simp [serL], by decide, by decide, by decide⟩
  | bool b =>
    cases b with
    | true => exact ⟨'t', ['r', 'u', 'e'], by simp [serL], by decide, by decide, by decide⟩
    | false =>
      exact ⟨'f', ['a', 'l', 's', 'e'], by simp [serL], by decide, by decide, by decide⟩
  | num n =>
    by_cases hn : n < 0
    · exact ⟨'-', natToChars n.natAbs, by simp [serL, serInt, hn], by decide, by decide,
        by decide⟩
    · obtain ⟨d, t, hnat, hd⟩ := natToChars_head n.natAbs
      have hf := digitChar_facts d hd
      exact ⟨digitChar d, t, by simp [serL, serInt, hn, hnat], hf.2.1,
        hf.2.2.2.2.2.2.2.2.2.1, hf.2.2.2.2.2.2.2.2.2.2⟩
  | str s => exact ⟨'"', escList s.data ++ ['"'], by simp [serL], by decide, by decide,
      by decide⟩
  | arr xs => exact ⟨'[', serItems xs ++ [']'], by simp [serL], by decide, by decide,
      by decide⟩
  | obj ms => exact ⟨lbrace, serMembers ms ++ [rbrace], by simp [serL], by decide, by decide,
      by decide⟩

theorem serItems_head (x : Json) (xs : JsonList) : ∃ c t,
    serItems (.cons x xs) = c :: t ∧ wsChar c = false ∧ c ≠ ']' ∧ c ≠ ',' := by
  obtain ⟨c, t, hc, h1, h2, h3⟩ := serL_head x
  cases xs with
  | nil => exact ⟨c, t, by simp [serItems, hc], h1, h2, h3⟩
  | cons y ys =>
    exact ⟨c, t ++ ',' :: serItems (.cons y ys), by simp [serItems, hc], h1, h2, h3⟩

theorem serMembers_head (k : String) (v : Json) (ms : JsonFields) : ∃ t,
    serMembers (.cons k v ms) = '"' :: t := by
  cases ms with
  | nil => exact ⟨escList k.data ++ '"' :: ':' :: serL v, by simp [serMembers]⟩
  | cons l w ns =>
    exact ⟨escList k.data ++ '"' :: ':' :: serL v ++ ',' :: serMembers (.cons l w ns),
      by simp [serMembers]⟩

theorem serL_length_pos : ∀ v : Json, 1 ≤ (serL v).length := by
  intro v
  obtain ⟨c, t, hc, _⟩ := serL_head v
  simp [hc]

theorem needV_pos : ∀ v : Json, 1 ≤ needV v := by
  intro v
  cases v with
  | arr xs => cases xs <;> simp [needV]
  | obj ms => cases ms <;> simp [needV]
  | null => simp [needV]
  | bool b => simp [needV]
  | num n => simp [needV]
  | str s => simp [needV]

theorem serItems_length_left (x : Json) (xs : JsonList) :
    (serL x).length ≤ (serItems (.cons x xs)).length := by
  cases xs with
  | nil => simp [serItems]
  | cons y ys => simp [serItems]

theorem serItems_length_tail (x y : Json) (ys : JsonList) :
    (serItems (.cons y ys)).length + 2 ≤ (serItems (.cons x (.cons y ys))).length := by
  have := serL_length_pos x
  simp [serItems]
  omega

theorem serMembers_length_left (k : String) (v : Json) (ms : JsonFields) :
    (serL v).length ≤ (serMembers (.cons k v ms)).length := by
  cases ms with
  | nil => simp [serMembers]; omega
  | cons l w ns => simp [serMembers]; omega

theorem serMembers_length_tail (k : String) (v : Json) (l : String) (w : Json)
    (ns : JsonFields) :
    (serMembers (.cons l w ns)).length + 2 ≤
      (serMembers (.cons k v (.cons l w ns))).length := by
  have := serL_length_pos v
  simp [serMembers]
  omega

theorem needV_le_serL : ∀ v : Json, needV v + 1 ≤ 2 * (serL v).length
  | .null => by simp [needV, serL]
  | .bool b => by cases b <;> simp [needV, serL]
  | .num n => by
    have := serL_length_pos (.num n)
    simp only [needV]
    omega
  | .str s => by simp [needV, serL]
  | .arr .nil => by simp [needV, serL, serItems]
  | .arr (.cons x xs) => by
    have hx0 := needV_le_serL x
    have hA := serItems_length_left x xs
    have hx : needV x ≤ 2 * (serItems (.cons x xs)).length + 2 := by omega
    have hxs : needV (.arr xs) ≤ 2 * (serItems (.cons x xs)).length + 2 := by
      cases xs with
      | nil => simp [needV]
      | cons y ys =>
        have h2 := needV_le_serL (.arr (.cons y ys))
        have hB := serItems_length_tail x y ys
        simp only [serL, List.length_cons, List.length_append, List.length_nil] at h2
        omega
    have hm : max (needV x) (needV (.arr xs)) ≤ 2 * (serItems (.cons x xs)).length + 2 :=
      Nat.max_le.mpr ⟨hx, hxs⟩
    simp only [needV, serL, List.length_cons, List.length_append, List.length_nil]
    omega
  | .obj .nil => by simp [needV, serL, serMembers]
  | .obj (.cons k v ms) => by
    have hv0 := needV_le_serL v
    have hA := serMembers_length_left k v ms
    have hv : needV v ≤ 2 * (serMembers (.cons k v ms)).length + 2 := by omega
    have hms : needV (.obj ms) ≤ 2 * (serMembers (.cons k v ms)).length + 2 := by
      cases ms with
      | nil => simp [needV]
      | cons l w ns =>
        have h2 := needV_le_serL (.obj (.cons l w ns))
        have hB := serMembers_length_tail k v l w ns
        simp only [serL, List.length_cons, List.length_append, List.length_nil] at h2
        omega
    have hm : max (needV v) (needV (.obj ms)) ≤ 2 * (serMembers (.cons k v ms)).length + 2 :=
      Nat.max_le.mpr ⟨hv, hms⟩
    simp only [needV, serL, List.length_cons, List.length_append, List.length_nil]
    omega
termination_by v => sizeOf v
decreasing_by all_goals (simp; try omega)

theorem lbrace_ne_n : ¬ (lbrace = 'n') := by decide
theorem lbrace_ne_t : ¬ (lbrace = 't') := by decide
theorem lbrace_ne_f : ¬ (lbrace = 'f') := by decide
theorem lbrace_ne_q : ¬ (lbrace = '"') := by decide
theorem lbrace_ne_minus : ¬ (lbrace = '-') := by decide
theorem lbrace_digit : digitVal lbrace = none := by decide
theorem lbrace_ne_lbracket : ¬ (lbrace = '[') := by decide
theorem quote_ne_rbrace : ¬ ('"' = rbrace) := by decide
theorem rbrace_ne_comma : ¬ (rbrace = ',') := by decide
theorem rbrace_eq_rbrace : rbrace = rbrace := rfl

theorem numOk_not_digit (v : Json) (c : Char) (t : List Char) (h : digitVal c = none) :
    numOk v (c :: t) := by
  cases v <;> simp [numOk, headDigit, h]

theorem parse_serL : ∀ (f : Nat) (v : Json) (rest : List Char), needV v ≤ f →
    numOk v rest → parseValue f (serL v ++ rest) = .ok (v, rest) := by
  intro f
  induction f with
  | zero =>
    intro v rest hneed _
    have := needV_pos v
    omega
  | succ f ih =>
    intro v rest hneed hnum
    cases v with
    | null =>
      rw [show serL .null ++ rest = 'n' :: 'u' :: 'l' :: 'l' :: rest by simp [serL]]
      rw [parseValue.eq_def]
      simp [litTail]
    | bool b =>
      cases b with
      | true =>
        rw [show serL (.bool true) ++ rest = 't' :: 'r' :: 'u' :: 'e' :: rest by simp [serL]]
        rw [parseValue.eq_def]
        simp [litTail]
      | false =>
        rw [show serL (.bool false) ++ rest = 'f' :: 'a' :: 'l' :: 's' :: 'e' :: rest by
          simp [serL]]
        rw [parseValue.eq_def]
        simp [litTail]
    | num n =>
      have hd0 : headDigit rest = false := hnum
      by_cases hn : n < 0
      · rw [show serL (.num n) ++ rest = '-' :: (natToChars n.natAbs ++ rest) by
          simp [serL, serInt, hn]]
        rw [parseValue.eq_def]
        simp only [reduceCtorEq, reduceIte]
        rw [show '-' :: (natToChars n.natAbs ++ rest) = serInt n ++ rest by
          simp [serInt, hn]]
        exact parseNumber_serInt n rest hd0
      · obtain ⟨d, t, hnat, hd⟩ := natToChars_head n.natAbs
        have hf := digitChar_facts d hd
        rw [show serL (.num n) ++ rest = digitChar d :: (t ++ rest) by
          simp [serL, serInt, hn, hnat]]
        rw [parseValue.eq_def]
        simp only [hf.1, hf.2.2.1, hf.2.2.2.1, hf.2.2.2.2.1, hf.2.2.2.2.2.1,
          Option.isSome_some, Bool.or_true, if_false, if_true, reduceIte]
        rw [show digitChar d :: (t ++ rest) = serInt n ++ rest by
          simp [serInt, hn, hnat]]
        exact parseNumber_serInt n rest hd0
    | str s =>
      rw [show serL (.str s) ++ rest = '"' :: (escList s.data ++ '"' :: rest) by
        simp [serL]]
      rw [parseValue.eq_def]
      simp [parseStringBody_esc]
    | arr xs =>
      cases xs with
      | nil =>
        rw [show serL (.arr .nil) ++ rest = '[' :: ']' :: rest by simp [serL, serItems]]
        rw [parseValue.eq_def]
        have hsk : skipWs (']' :: rest) = ']' :: rest := skipWs_cons_not _ _ (by decide)
        simp [hsk, digitVal]
      | cons x xs' =>
        obtain ⟨cx, tx, hcx, hwx, hbx, hcomx⟩ := serItems_head x xs'
        have hneed' : max (needV x) (needV (.arr xs')) ≤ f := by
          simp only [needV] at hneed
          omega
        have hnx := Nat.max_le.mp hneed'
        rw [show serL (.arr (.cons x xs')) ++ rest =
          '[' :: (serItems (.cons x xs') ++ ']' :: rest) by simp [serL]]
        rw [parseValue.eq_def]
        have hsk : skipWs (serItems (.cons x xs') ++ ']' :: rest) =
            serItems (.cons x xs') ++ ']' :: rest := by
          rw [hcx, List.cons_append]
          exact skipWs_cons_not _ _ hwx
        simp only [reduceCtorEq, reduceIte, hsk]
        rw [hcx, List.cons_append]
        simp only [if_neg hbx]
        rw [← List.cons_append, ← hcx]
        cases xs' with
        | nil =>
          have hone : serItems (.cons x .nil) ++ ']' :: rest = serL x ++ ']' :: rest := by
            simp [serItems]
          rw [hone, ih x (']' :: rest) hnx.1 (numOk_not_digit _ _ _ (by decide))]
          have hsk2 : skipWs (']' :: rest) = ']' :: rest := skipWs_cons_not _ _ (by decide)
          simp [hsk2, digitVal]
        | cons y ys =>
          have htwo : serItems (.cons x (.cons y ys)) ++ ']' :: rest =
              serL x ++ (',' :: (serItems (.cons y ys) ++ ']' :: rest)) := by
            simp [serItems]
          rw [htwo, ih x _ hnx.1 (numOk_not_digit _ _ _ (by decide))]
          have hsk2 : skipWs (',' :: (serItems (.cons y ys) ++ ']' :: rest)) =
              ',' :: (serItems (.cons y ys) ++ ']' :: rest) :=
            skipWs_cons_not _ _ (by decide)
          simp only [hsk2]
          obtain ⟨cy, ty, hcy, hwy, _, _⟩ := serItems_head y ys
          have hsk3 : skipWs (serItems (.cons y ys) ++ ']' :: rest) =
              serItems (.cons y ys) ++ ']' :: rest := by
            rw [hcy, List.cons_append]
            exact skipWs_cons_not _ _ hwy
          simp only [hsk3]
          have hrec : parseValue f ('[' :: (serItems (.cons y ys) ++ ']' :: rest)) =
              .ok (.arr (.cons y ys), rest) := by
            rw [show '[' :: (serItems (.cons y ys) ++ ']' :: rest) =
              serL (.arr (.cons y ys)) ++ rest by simp [serL]]
            exact ih _ rest hnx.2 (by simp [numOk])
          simp [hrec, digitVal]
    | obj ms =>
      cases ms with
      | nil =>
        rw [show serL (.obj .nil) ++ rest = lbrace :: rbrace :: rest by
          simp [serL, serMembers]]
        rw [parseValue.eq_def]
        have hsk : skipWs (rbrace :: rest) = rbrace :: rest :=
          skipWs_cons_not _ _ (by decide)
        simp [hsk, lbrace_ne_n, lbrace_ne_t, lbrace_ne_f, lbrace_ne_q, lbrace_ne_minus, lbrace_digit, lbrace_ne_lbracket, quote_ne_rbrace, rbrace_ne_comma]
      | cons k v ms' =>
        have hneed' : max (needV v) (needV (.obj ms')) ≤ f := by
          simp only [needV] at hneed
          omega
        have hnx := Nat.max_le.mp hneed'
        obtain ⟨cv, tv, hcv, hwv, _, _⟩ := serL_head v
        have hskv : skipWs (serL v ++ rbrace :: rest) = serL v ++ rbrace :: rest := by
          rw [hcv, List.cons_append]
          exact skipWs_cons_not _ _ hwv
        have hskv2 : ∀ z : List Char, skipWs (serL v ++ ',' :: z) = serL v ++ ',' :: z := by
          intro z
          rw [hcv, List.cons_append]
          exact skipWs_cons_not _ _ hwv
        cases ms' with
        | nil =>
          rw [show serL (.obj (.cons k v .nil)) ++ rest =
            lbrace :: ('"' :: (escList k.data ++ '"' :: (':' :: (serL v ++ rbrace :: rest))))
            by simp [serL, serMembers]]
          rw [parseValue.eq_def]
          have hq : skipWs ('"' :: (escList k.data ++ '"' ::
              (':' :: (serL v ++ rbrace :: rest)))) = '"' :: (escList k.data ++ '"' ::
              (':' :: (serL v ++ rbrace :: rest))) := skipWs_cons_not _ _ (by decide)
          simp only [reduceCtorEq, reduceIte, hq, parseStringBody_esc, lbrace_ne_n, lbrace_ne_t, lbrace_ne_f, lbrace_ne_q, lbrace_ne_minus, lbrace_digit, lbrace_ne_lbracket, quote_ne_rbrace, rbrace_ne_comma,
            Option.isSome_none, Bool.or_false, if_false, if_true, eq_self_iff_true,
            Option.isSome_some]
          have hsk2 : skipWs (':' :: (serL v ++ rbrace :: rest)) =
              ':' :: (serL v ++ rbrace :: rest) := skipWs_cons_not _ _ (by decide)
          simp only [hsk2, hskv,
            ih v (rbrace :: rest) hnx.1 (numOk_not_digit _ _ _ (by decide))]
          have hsk3 : skipWs (rbrace :: rest) = rbrace :: rest :=
            skipWs_cons_not _ _ (by decide)
          simp only [hsk3]
          simp [rbrace_ne_comma, show String.mk k.data = k from rfl]
        | cons l w ns =>
          rw [show serL (.obj (.cons k v (.cons l w ns))) ++ rest =
            lbrace :: ('"' :: (escList k.data ++ '"' :: (':' :: (serL v ++ ',' ::
              (serMembers (.cons l w ns) ++ rbrace :: rest)))))
            by simp [serL, serMembers]]
          rw [parseValue.eq_def]
          have hq : ∀ z : List Char, skipWs ('"' :: z) = '"' :: z := fun z =>
            skipWs_cons_not _ _ (by decide)
          simp only [reduceCtorEq, reduceIte, hq, parseStringBody_esc, lbrace_ne_n, lbrace_ne_t, lbrace_ne_f, lbrace_ne_q, lbrace_ne_minus, lbrace_digit, lbrace_ne_lbracket, quote_ne_rbrace, rbrace_ne_comma,
            Option.isSome_none, Bool.or_false, if_false, if_true, eq_self_iff_true,
            Option.isSome_some]
          have hsk2 : ∀ z : List Char, skipWs (':' :: z) = ':' :: z := fun z =>
            skipWs_cons_not _ _ (by decide)
          simp only [hsk2, hskv2,
            ih v (',' :: (serMembers (.cons l w ns) ++ rbrace :: rest)) hnx.1
              (numOk_not_digit _ _ _ (by decide))]
          have hsk3 : ∀ z : List Char, skipWs (',' :: z) = ',' :: z := fun z =>
            skipWs_cons_not _ _ (by decide)
          simp only [hsk3]
          obtain ⟨tm, htm⟩ := serMembers_head l w ns
          have hsk4 : skipWs (serMembers (.cons l w ns) ++ rbrace :: rest) =
              serMembers (.cons l w ns) ++ rbrace :: rest := by
            rw [htm, List.cons_append]
            exact skipWs_cons_not _ _ (by decide)
          simp only [hsk4]
          have hrec : parseValue f (lbrace ::
              (serMembers (.cons l w ns) ++ rbrace :: rest)) =
              .ok (.obj (.cons l w ns), rest) := by
            rw [show lbrace :: (serMembers (.cons l w ns) ++ rbrace :: rest) =
              serL (.obj (.cons l w ns)) ++ rest by simp [serL]]
            exact ih _ rest hnx.2 (by simp [numOk])
          simp [hrec, show String.mk k.data = k from rfl]

theorem skipWs_cons_ws (c : Char) (t : List Char) (h : wsChar c = true) :
    skipWs (c :: t) = skipWs t := by
  simp [skipWs, List.dropWhile_cons, h]

theorem skipWs_all : ∀ cs : List Char, (∀ c ∈ cs, wsChar c = true) → skipWs cs = [] := by
  intro cs
  induction cs with
  | nil => intro _; rfl
  | cons c t ih =>
    intro h
    rw [skipWs_cons_ws c t (h c (List.mem_cons_self _ _))]
    exact ih (fun x hx => h x (List.mem_cons_of_mem _ hx))

theorem renderSeqL_cons (v : Json) (vs : List Json) :
    renderSeqL (v :: vs) = serL v ++ '\n' :: renderSeqL vs := by
  simp [renderSeqL]

theorem skipWs_renderSeqL : ∀ vs : List Json, skipWs (renderSeqL vs) = renderSeqL vs := by
  intro vs
  cases vs with
  | nil => rfl
  | cons v vs =>
    rw [renderSeqL_cons]
    obtain ⟨c, t, hc, hw, _, _⟩ := serL_head v
    rw [hc, List.cons_append]
    exact skipWs_cons_not _ _ hw

theorem renderSeqL_length : ∀ vs : List Json, vs.length ≤ (renderSeqL vs).length := by
  intro vs
  induction vs with
  | nil => simp [renderSeqL]
  | cons v vs ih =>
    rw [renderSeqL_cons]
    simp only [List.length_cons, List.length_append, List.length_cons]
    omega

theorem loadLoop_renderSeqL : ∀ (vs : List Json) (f : Nat), vs.length < f →
    loadLoop f (renderSeqL vs) = .ok vs := by
  intro vs
  induction vs with
  | nil => intro f _; cases f <;> rfl
  | cons v vs ih =>
    intro f h
    obtain ⟨f', rfl⟩ : ∃ f', f = f' + 1 := ⟨f - 1, by omega⟩
    rw [renderSeqL_cons]
    have hdec : rawDecode (serL v ++ '\n' :: renderSeqL vs) =
        .ok (v, '\n' :: renderSeqL vs) := by
      have hlen : (serL v).length ≤ (serL v ++ '\n' :: renderSeqL vs).length := by
        simp
      have hfuel : needV v ≤ 2 * (serL v ++ '\n' :: renderSeqL vs).length + 2 := by
        have := needV_le_serL v
        omega
      exact parse_serL _ v _ hfuel (numOk_not_digit _ _ _ (by decide))
    obtain ⟨c, t, hc, hw, _, _⟩ := serL_head v
    rw [hc, List.cons_append, loadLoop.eq_def]
    dsimp only
    rw [← List.cons_append, ← hc]
    simp only [hdec]
    rw [skipWs_cons_ws _ _ (by decide), skipWs_renderSeqL, ih f' (by simp at h; omega)]

/-! ### Claim C2: the catalog decoding contract -/

/-- C2 counterexample: `"1"` and `"2"` are each a syntactically complete JSON
value, but decoding their unseparated back-to-back concatenation `"12"` yields
the single numeral 12, not the two-element sequence; the stream decoder is
greedy over numerals, so whitespace between adjacent numerals is not optional. -/
theorem C2_adjacent_numerals_merge :
    decodesFullyTo "1" (.num 1) ∧ decodesFullyTo "2" (.num 2) ∧
    ("1" ++ "2" : String) = "12" ∧
    load_rendered_index "12" = .ok [Json.num 12] ∧
    load_rendered_index "12" ≠ .ok [Json.num 1, Json.num 2] := by
  refine ⟨?_, ?_, rfl, by decide, by decide⟩ <;> · show rawDecode _ = _; decide

/-! ### The stream decoder is stable under extending the input

A successful decode consumes a determined prefix: appending more text after
it (anything that does not begin with a digit, which alone could extend a
just-finished numeral) leaves the decoded value unchanged and lands the
extra text in the unconsumed remainder.  This is what lets the decode loop
process an arbitrary whitespace-separated concatenation of complete value
texts one value at a time. -/

theorem litTail_extend : ∀ (lit cs r tail : List Char),
    litTail lit cs = some r → litTail lit (cs ++ tail) = some (r ++ tail) := by
  intro lit
  induction lit with
  | nil =>
    intro cs r tail h
    simp only [litTail, Option.some.injEq] at h
    subst h
    rfl
  | cons l ls ih =>
    intro cs r tail h
    cases cs with
    | nil => exact absurd h (by simp [litTail])
    | cons c cs' =>
      rw [litTail.eq_def] at h
      dsimp only at h
      by_cases hc : c = l
      · rw [if_pos hc] at h
        rw [List.cons_append, litTail.eq_def]
        dsimp only
        rw [if_pos hc]
        exact ih cs' r tail h
      · rw [if_neg hc] at h
        exact absurd h (by simp)

theorem parseStringBody_extend : ∀ (cs b r tail : List Char),
    parseStringBody cs = .ok (b, r) → parseStringBody (cs ++ tail) = .ok (b, r ++ tail)
  | [], b, r, tail, h => absurd h (by simp [parseStringBody])
  | c :: rest, b, r, tail, h => by
    rw [parseStringBody.eq_def] at h
    dsimp only at h
    rw [List.cons_append, parseStringBody.eq_def]
    dsimp only
    by_cases hq : c = '"'
    · rw [if_pos hq] at h ⊢
      simp only [Except.ok.injEq, Prod.mk.injEq] at h
      obtain ⟨rfl, rfl⟩ := h
      rfl
    · rw [if_neg hq] at h ⊢
      by_cases hb : c = '\\'
      · rw [if_pos hb] at h ⊢
        cases rest with
        | nil => simp at h
        | cons e r' =>
          simp only [List.cons_append]
          dsimp only at h ⊢
          by_cases hu : e = 'u'
          · rw [if_pos hu] at h ⊢
            cases r' with
            | nil => simp at h
            | cons h1 t1 =>
              cases t1 with
              | nil => simp at h
              | cons h2 t2 =>
                cases t2 with
                | nil => simp at h
                | cons h3 t3 =>
                  cases t3 with
                  | nil => simp at h
                  | cons h4 r2 =>
                    simp only [List.cons_append]
                    dsimp only at h ⊢
                    cases hx1 : hexVal h1 with
                    | none => rw [hx1] at h; simp at h
                    | some a =>
                      rw [hx1] at h
                      cases hx2 : hexVal h2 with
                      | none => rw [hx2] at h; simp at h
                      | some a2 =>
                        rw [hx2] at h
                        cases hx3 : hexVal h3 with
                        | none => rw [hx3] at h; simp at h
                        | some a3 =>
                          rw [hx3] at h
                          cases hx4 : hexVal h4 with
                          | none => rw [hx4] at h; simp at h
                          | some a4 =>
                            rw [hx4] at h
                            dsimp only at h ⊢
                            cases hrec : parseStringBody r2 with
                            | error e2 => rw [hrec] at h; simp at h
                            | ok pr =>
                              obtain ⟨body, rr⟩ := pr
                              rw [hrec] at h
                              rw [parseStringBody_extend r2 body rr tail hrec]
                              simp only [Except.ok.injEq, Prod.mk.injEq] at h
                              obtain ⟨rfl, rfl⟩ := h
                              rfl
          · rw [if_neg hu] at h ⊢
            cases hec : escCode e with
            | none => rw [hec] at h; simp at h
            | some c2 =>
              rw [hec] at h
              dsimp only at h ⊢
              cases hrec : parseStringBody r' with
              | error e2 => rw [hrec] at h; simp at h
              | ok pr =>
                obtain ⟨body, rr⟩ := pr
                rw [hrec] at h
                rw [parseStringBody_extend r' body rr tail hrec]
                simp only [Except.ok.injEq, Prod.mk.injEq] at h
                obtain ⟨rfl, rfl⟩ := h
                rfl
      · rw [if_neg hb] at h ⊢
        cases hrec : parseStringBody rest with
        | error e2 => rw [hrec] at h; simp at h
        | ok pr =>
          obtain ⟨body, rr⟩ := pr
          rw [hrec] at h
          rw [parseStringBody_extend rest body rr tail hrec]
          simp only [Except.ok.injEq, Prod.mk.injEq] at h
          obtain ⟨rfl, rfl⟩ := h
          rfl

theorem parseDigits_extend : ∀ (cs : List Char) (acc n : Nat) (r tail : List Char),
    parseDigits cs acc = (n, r) → headDigit tail = false →
    parseDigits (cs ++ tail) acc = (n, r ++ tail) := by
  intro cs
  induction cs with
  | nil =>
    intro acc n r tail h hd
    simp only [parseDigits, Prod.mk.injEq] at h
    obtain ⟨rfl, rfl⟩ := h
    simp only [List.nil_append]
    cases tail with
    | nil => rfl
    | cons c t =>
      have hnone : digitVal c = none := by
        simp only [headDigit] at hd
        exact Option.not_isSome_iff_eq_none.mp (by simp [hd])
      rw [parseDigits.eq_def]
      simp [hnone]
  | cons c cs' ih =>
    intro acc n r tail h hd
    rw [parseDigits.eq_def] at h
    dsimp only at h
    rw [List.cons_append, parseDigits.eq_def]
    dsimp only
    cases hdc : digitVal c with
    | none =>
      rw [hdc] at h
      dsimp only at h
      simp only [Prod.mk.injEq] at h
      obtain ⟨rfl, rfl⟩ := h
      rfl
    | some d =>
      rw [hdc] at h
      dsimp only at h
      exact ih _ n r tail h hd

theorem parseDigitsStart_extend (cs : List Char) (n : Nat) (r tail : List Char)
    (h : parseDigitsStart cs = .ok (n, r)) (hd : headDigit tail = false) :
    parseDigitsStart (cs ++ tail) = .ok (n, r ++ tail) := by
  cases cs with
  | nil => exact absurd h (by simp [parseDigitsStart])
  | cons c cs' =>
    rw [parseDigitsStart.eq_def] at h ⊢
    dsimp only at h
    rw [List.cons_append]
    dsimp only
    by_cases hds : (digitVal c).isSome = true
    · rw [if_pos hds] at h
      rw [if_pos hds]
      simp only [Except.ok.injEq] at h
      rw [show c :: (cs' ++ tail) = (c :: cs') ++ tail from rfl,
        parseDigits_extend (c :: cs') 0 n r tail h hd]
    · rw [if_neg hds] at h
      exact absurd h (by simp)

theorem parseNumber_extend (cs : List Char) (v : Json) (r tail : List Char)
    (h : parseNumber cs = .ok (v, r)) (hd : headDigit tail = false) :
    parseNumber (cs ++ tail) = .ok (v, r ++ tail) := by
  cases cs with
  | nil => exact absurd h (by simp [parseNumber])
  | cons c cs' =>
    rw [parseNumber.eq_def] at h
    dsimp only at h
    rw [List.cons_append, parseNumber.eq_def]
    dsimp only
    by_cases hm : c = '-'
    · rw [if_pos hm] at h ⊢
      cases hst : parseDigitsStart cs' with
      | error e => rw [hst] at h; simp at h
      | ok pr =>
        obtain ⟨m, r1⟩ := pr
        rw [hst] at h
        rw [parseDigitsStart_extend cs' m r1 tail hst hd]
        simp only [Except.ok.injEq, Prod.mk.injEq] at h
        obtain ⟨rfl, rfl⟩ := h
        rfl
    · rw [if_neg hm] at h ⊢
      cases hst : parseDigitsStart (c :: cs') with
      | error e => rw [hst] at h; simp at h
      | ok pr =>
        obtain ⟨m, r1⟩ := pr
        rw [hst] at h
        have := parseDigitsStart_extend (c :: cs') m r1 tail hst hd
        rw [List.cons_append] at this
        rw [this]
        simp only [Except.ok.injEq, Prod.mk.injEq] at h
        obtain ⟨rfl, rfl⟩ := h
        rfl

theorem skipWs_extend : ∀ (cs : List Char) (c : Char) (r tail : List Char),
    skipWs cs = c :: r → skipWs (cs ++ tail) = c :: (r ++ tail) := by
  intro cs
  induction cs with
  | nil => intro c r tail h; exact absurd h (by simp [skipWs])
  | cons x xs ih =>
    intro c r tail h
    by_cases hx : wsChar x = true
    · rw [skipWs_cons_ws x xs hx] at h
      rw [List.cons_append, skipWs_cons_ws x _ hx]
      exact ih c r tail h
    · rw [skipWs_cons_not x xs (by simp at hx; simp [hx])] at h
      cases h
      rw [List.cons_append,
        skipWs_cons_not x (xs ++ tail) (by simp at hx; simp [hx])]

theorem parseValue_ws_err (f : Nat) (c : Char) (t : List Char) (h : wsChar c = true) :
    parseValue f (c :: t) = .error .jsonDecodeError := by
  cases f with
  | zero => rfl
  | succ f =>
    have hc : ((c = ' ' ∨ c = '\t') ∨ c = '\n') ∨ c = '\r' := by
      simpa [wsChar] using h
    rw [parseValue.eq_def]
    rcases hc with ((rfl | rfl) | rfl) | rfl <;>
      simp [digitVal, (by decide : ¬ (' ' = lbrace)), (by decide : ¬ ('\t' = lbrace)),
        (by decide : ¬ ('\n' = lbrace)), (by decide : ¬ ('\r' = lbrace))]

theorem parseValue_nil_err (f : Nat) : parseValue f ([] : List Char) = .error .jsonDecodeError := by
  cases f <;> rfl

theorem parseValue_head (f : Nat) (cs : List Char) (v : Json) (r : List Char)
    (h : parseValue f cs = .ok (v, r)) : ∃ c t, cs = c :: t ∧ wsChar c = false := by
  cases cs with
  | nil => rw [parseValue_nil_err] at h; exact absurd h (by simp)
  | cons c t =>
    by_cases hw : wsChar c = true
    · rw [parseValue_ws_err f c t hw] at h
      exact absurd h (by simp)
    · exact ⟨c, t, rfl, by simp at hw; simp [hw]⟩

theorem parseValue_lbracket_nil (f : Nat) :
    parseValue f ['['] = .error .jsonDecodeError := by
  cases f with
  | zero => rfl
  | succ f => rw [parseValue.eq_def]; simp [digitVal, skipWs, (by decide : ¬ ('[' = lbrace))]

theorem parseValue_lbrace_nil (f : Nat) :
    parseValue f [lbrace] = .error .jsonDecodeError := by
  cases f with
  | zero => rfl
  | succ f =>
    rw [parseValue.eq_def]
    simp [skipWs, lbrace_ne_n, lbrace_ne_t, lbrace_ne_f, lbrace_ne_q, lbrace_ne_minus,
      lbrace_digit, lbrace_ne_lbracket]

theorem parseValue_extend : ∀ (f : Nat) (cs : List Char) (v : Json) (r : List Char),
    parseValue f cs = .ok (v, r) → ∀ (g : Nat) (tail : List Char), f ≤ g →
    headDigit tail = false → parseValue g (cs ++ tail) = .ok (v, r ++ tail) := by
  intro f
  induction f with
  | zero =>
    intro cs v r h
    rw [show parseValue 0 cs = .error .jsonDecodeError from rfl] at h
    exact absurd h (by simp)
  | succ f ih =>
    intro cs v r h g tail hg hd
    obtain ⟨g', rfl⟩ : ∃ g', g = g' + 1 := ⟨g - 1, by omega⟩
    have hg' : f ≤ g' := by omega
    cases cs with
    | nil => rw [parseValue_nil_err] at h; exact absurd h (by simp)
    | cons c rest =>
      rw [parseValue.eq_def] at h
      dsimp only at h
      rw [List.cons_append, parseValue.eq_def]
      dsimp only
      by_cases h1 : c = 'n'
      · subst h1
        rw [if_pos rfl] at h ⊢
        cases hlit : litTail ['u', 'l', 'l'] rest with
        | none => rw [hlit] at h; simp at h
        | some r0 =>
          rw [hlit] at h
          rw [litTail_extend _ _ _ tail hlit]
          simp only [Except.ok.injEq, Prod.mk.injEq] at h
          obtain ⟨rfl, rfl⟩ := h
          rfl
      · rw [if_neg h1] at h ⊢
        by_cases h2 : c = 't'
        · subst h2
          rw [if_pos rfl] at h ⊢
          cases hlit : litTail ['r', 'u', 'e'] rest with
          | none => rw [hlit] at h; simp at h
          | some r0 =>
            rw [hlit] at h
            rw [litTail_extend _ _ _ tail hlit]
            simp only [Except.ok.injEq, Prod.mk.injEq] at h
            obtain ⟨rfl, rfl⟩ := h
            rfl
        · rw [if_neg h2] at h ⊢
          by_cases h3 : c = 'f'
          · subst h3
            rw [if_pos rfl] at h ⊢
            cases hlit : litTail ['a', 'l', 's', 'e'] rest with
            | none => rw [hlit] at h; simp at h
            | some r0 =>
              rw [hlit] at h
              rw [litTail_extend _ _ _ tail hlit]
              simp only [Except.ok.injEq, Prod.mk.injEq] at h
              obtain ⟨rfl, rfl⟩ := h
              rfl
          · rw [if_neg h3] at h ⊢
            by_cases h4 : c = '"'
            · subst h4
              rw [if_pos rfl] at h ⊢
              cases hsb : parseStringBody rest with
              | error e => rw [hsb] at h; simp at h
              | ok pr =>
                obtain ⟨body, r0⟩ := pr
                rw [hsb] at h
                rw [parseStringBody_extend rest body r0 tail hsb]
                simp only [Except.ok.injEq, Prod.mk.injEq] at h
                obtain ⟨rfl, rfl⟩ := h
                rfl
            · rw [if_neg h4] at h ⊢
              by_cases h5 : (c = '-' || (digitVal c).isSome) = true
              · rw [if_pos h5] at h ⊢
                rw [show c :: (rest ++ tail) = (c :: rest) ++ tail from rfl,
                  parseNumber_extend _ _ _ _ h hd]
              · rw [if_neg h5] at h ⊢
                by_cases h6 : c = '['
                · subst h6
                  rw [if_pos rfl] at h ⊢
                  cases hsw : skipWs rest with
                  | nil => rw [hsw] at h; simp at h
                  | cons c1 r0 =>
                    rw [hsw] at h
                    rw [skipWs_extend rest c1 r0 tail hsw]
                    dsimp only at h ⊢
                    by_cases hc1 : c1 = ']'
                    · rw [if_pos hc1] at h ⊢
                      simp only [Except.ok.injEq, Prod.mk.injEq] at h
                      obtain ⟨rfl, rfl⟩ := h
                      rfl
                    · rw [if_neg hc1] at h ⊢
                      cases hp1 : parseValue f (c1 :: r0) with
                      | error e => rw [hp1] at h; simp at h
                      | ok pr1 =>
                        obtain ⟨v1, r1⟩ := pr1
                        rw [hp1] at h
                        have hp1' : parseValue g' ((c1 :: r0) ++ tail) = .ok (v1, r1 ++ tail) :=
                          ih _ _ _ hp1 g' tail hg' hd
                        rw [show c1 :: (r0 ++ tail) = (c1 :: r0) ++ tail from rfl, hp1']
                        dsimp only at h ⊢
                        cases hsw2 : skipWs r1 with
                        | nil => rw [hsw2] at h; simp at h
                        | cons c2 r2 =>
                          rw [hsw2] at h
                          rw [skipWs_extend r1 c2 r2 tail hsw2]
                          dsimp only at h ⊢
                          by_cases hc2 : c2 = ','
                          · rw [if_pos hc2] at h ⊢
                            cases hp2 : parseValue f ('[' :: skipWs r2) with
                            | error e => rw [hp2] at h; simp at h
                            | ok pr2 =>
                              obtain ⟨v2, r3⟩ := pr2
                              rw [hp2] at h
                              cases v2 with
                              | arr xs =>
                                cases hsw3 : skipWs r2 with
                                | nil =>
                                  rw [hsw3, parseValue_lbracket_nil] at hp2
                                  simp at hp2
                                | cons c3 r4 =>
                                  have hsw3' : skipWs (r2 ++ tail) = c3 :: (r4 ++ tail) :=
                                    skipWs_extend r2 c3 r4 tail hsw3
                                  have hp2' : parseValue g' (('[' :: skipWs r2) ++ tail) =
                                      .ok (.arr xs, r3 ++ tail) := ih _ _ _ hp2 g' tail hg' hd
                                  rw [hsw3', show '[' :: (c3 :: (r4 ++ tail)) =
                                    ('[' :: skipWs r2) ++ tail by rw [hsw3]; rfl, hp2']
                                  dsimp only at h ⊢
                                  simp only [Except.ok.injEq, Prod.mk.injEq] at h
                                  obtain ⟨rfl, rfl⟩ := h
                                  rfl
                              | null => simp at h
                              | bool b => simp at h
                              | num n => simp at h
                              | str s => simp at h
                              | obj ms => simp at h
                          · rw [if_neg hc2] at h ⊢
                            by_cases hc2' : c2 = ']'
                            · rw [if_pos hc2'] at h ⊢
                              simp only [Except.ok.injEq, Prod.mk.injEq] at h
                              obtain ⟨rfl, rfl⟩ := h
                              rfl
                            · rw [if_neg hc2'] at h; simp at h
                · rw [if_neg h6] at h ⊢
                  by_cases h7 : c = lbrace
                  · subst h7
                    rw [if_pos rfl] at h ⊢
                    cases hsw : skipWs rest with
                    | nil => rw [hsw] at h; simp at h
                    | cons c1 r0 =>
                      rw [hsw] at h
                      rw [skipWs_extend rest c1 r0 tail hsw]
                      dsimp only at h ⊢
                      by_cases hc1 : c1 = rbrace
                      · rw [if_pos hc1] at h ⊢
                        simp only [Except.ok.injEq, Prod.mk.injEq] at h
                        obtain ⟨rfl, rfl⟩ := h
                        rfl
                      · rw [if_neg hc1] at h ⊢
                        by_cases hq1 : c1 = '"'
                        · rw [if_pos hq1] at h ⊢
                          cases hsb : parseStringBody r0 with
                          | error e => rw [hsb] at h; simp at h
                          | ok pr =>
                            obtain ⟨key, r1⟩ := pr
                            rw [hsb] at h
                            rw [parseStringBody_extend r0 key r1 tail hsb]
                            dsimp only at h ⊢
                            cases hsw2 : skipWs r1 with
                            | nil => rw [hsw2] at h; simp at h
                            | cons c2 r2 =>
                              rw [hsw2] at h
                              rw [skipWs_extend r1 c2 r2 tail hsw2]
                              dsimp only at h ⊢
                              by_cases hc2 : c2 = ':'
                              · rw [if_pos hc2] at h ⊢
                                cases hp1 : parseValue f (skipWs r2) with
                                | error e => rw [hp1] at h; simp at h
                                | ok pr1 =>
                                  obtain ⟨v1, r3⟩ := pr1
                                  rw [hp1] at h
                                  obtain ⟨cz, rz, hz, hwz⟩ :=
                                    parseValue_head f (skipWs r2) v1 r3 hp1
                                  have hz2 : skipWs (r2 ++ tail) = cz :: (rz ++ tail) :=
                                    skipWs_extend r2 cz rz tail hz
                                  have hp1' : parseValue g' (skipWs r2 ++ tail) =
                                      .ok (v1, r3 ++ tail) := ih _ _ _ hp1 g' tail hg' hd
                                  rw [hz2, show cz :: (rz ++ tail) = (cz :: rz) ++ tail
                                    from rfl, ← hz, hp1']
                                  dsimp only at h ⊢
                                  cases hsw3 : skipWs r3 with
                                  | nil => rw [hsw3] at h; simp at h
                                  | cons c3 r4 =>
                                    rw [hsw3] at h
                                    rw [skipWs_extend r3 c3 r4 tail hsw3]
                                    dsimp only at h ⊢
                                    by_cases hc3 : c3 = ','
                                    · rw [if_pos hc3] at h ⊢
                                      cases hp2 : parseValue f (lbrace :: skipWs r4) with
                                      | error e => rw [hp2] at h; simp at h
                                      | ok pr2 =>
                                        obtain ⟨v2, r5⟩ := pr2
                                        rw [hp2] at h
                                        cases v2 with
                                        | obj ms =>
                                          cases hsw4 : skipWs r4 with
                                          | nil =>
                                            rw [hsw4, parseValue_lbrace_nil] at hp2
                                            simp at hp2
                                          | cons c4 r6 =>
                                            have hsw4' : skipWs (r4 ++ tail) =
                                                c4 :: (r6 ++ tail) :=
                                              skipWs_extend r4 c4 r6 tail hsw4
                                            have hp2' : parseValue g'
                                                ((lbrace :: skipWs r4) ++ tail) =
                                                .ok (.obj ms, r5 ++ tail) :=
                                              ih _ _ _ hp2 g' tail hg' hd
                                            rw [hsw4', show lbrace :: (c4 :: (r6 ++ tail)) =
                                              (lbrace :: skipWs r4) ++ tail by
                                                rw [hsw4]; rfl, hp2']
                                            dsimp only at h ⊢
                                            simp only [Except.ok.injEq, Prod.mk.injEq] at h
                                            obtain ⟨rfl, rfl⟩ := h
                                            rfl
                                        | null => simp at h
                                        | bool b => simp at h
                                        | num n => simp at h
                                        | str s => simp at h
                                        | arr xs => simp at h
                                    · rw [if_neg hc3] at h ⊢
                                      by_cases hc3' : c3 = rbrace
                                      · rw [if_pos hc3'] at h ⊢
                                        simp only [Except.ok.injEq, Prod.mk.injEq] at h
                                        obtain ⟨rfl, rfl⟩ := h
                                        rfl
                                      · rw [if_neg hc3'] at h; simp at h
                              · rw [if_neg hc2] at h; simp at h
                        · rw [if_neg hq1] at h; simp at h
                  · rw [if_neg h7] at h; simp at h

theorem ws_not_digit : ∀ c : Char, wsChar c = true → (digitVal c).isSome = false := by
  intro c h
  simp only [wsChar, Bool.or_eq_true, decide_eq_true_eq] at h
  rcases h with ((rfl | rfl) | rfl) | rfl <;> decide

theorem skipWs_append_ws : ∀ (ws x : List Char), (∀ c ∈ ws, wsChar c = true) →
    skipWs (ws ++ x) = skipWs x := by
  intro ws
  induction ws with
  | nil => intro x _; rfl
  | cons c t ih =>
    intro x h
    rw [List.cons_append, skipWs_cons_ws c _ (h c (List.mem_cons_self _ _))]
    exact ih x (fun y hy => h y (List.mem_cons_of_mem _ hy))

theorem join_data : ∀ l : List String, (String.join l).data = (l.map String.data).flatten := by
  intro l
  induction l with
  | nil => rfl
  | cons a t ih =>
    rw [string_join_cons, String.data_append, ih, List.map_cons, List.flatten_cons]

/-- A concatenation of decode-able piece texts (each followed by its trailing
whitespace) starts with a non-whitespace character or is empty, so stripping
leading whitespace leaves it unchanged. -/
theorem skipWs_stream : ∀ ps : List (List Char × List Char × Json),
    (∀ p ∈ ps, rawDecode p.1 = .ok (p.2.2, [])) →
    skipWs ((ps.map fun p => p.1 ++ p.2.1).flatten) =
      (ps.map fun p => p.1 ++ p.2.1).flatten := by
  intro ps hdec
  cases ps with
  | nil => rfl
  | cons q qs =>
    have hq' : parseValue (2 * q.1.length + 2) q.1 = .ok (q.2.2, []) :=
      hdec q (List.mem_cons_self _ _)
    obtain ⟨c2, t2, hq2, hw2⟩ := parseValue_head _ _ _ _ hq'
    rw [List.map_cons, List.flatten_cons, hq2]
    simp only [List.cons_append]
    exact skipWs_cons_not c2 _ hw2

/-- A stream of nonempty piece texts is at least as long as the piece count:
the fuel bound `load_rendered_index` supplies always covers the loop. -/
theorem stream_length : ∀ ps : List (List Char × List Char × Json),
    (∀ p ∈ ps, p.1 ≠ ([] : List Char)) →
    ps.length ≤ ((ps.map fun p => p.1 ++ p.2.1).flatten).length := by
  intro ps
  induction ps with
  | nil => intro _; simp
  | cons q qs ih =>
    intro h
    rw [List.map_cons, List.flatten_cons]
    simp only [List.length_cons, List.length_append]
    have h1 : 1 ≤ q.1.length := by
      cases hq : q.1 with
      | nil => exact absurd hq (h q (List.mem_cons_self _ _))
      | cons a b => simp
    have h2 := ih (fun r hr => h r (List.mem_cons_of_mem _ hr))
    omega

/-- The decode loop on an arbitrary whitespace-separated concatenation of
complete value texts: each piece is a value text, its trailing separator is
all whitespace, and every piece but the last has a nonempty separator (two
numerals with nothing between them would merge).  The loop returns the
pieces' values in order. -/
theorem loadLoop_pieces : ∀ (ps : List (List Char × List Char × Json)) (f : Nat),
    ps.length < f →
    (∀ p ∈ ps, rawDecode p.1 = .ok (p.2.2, [])) →
    (∀ p ∈ ps, ∀ c ∈ p.2.1, wsChar c = true) →
    (∀ p ∈ ps.dropLast, p.2.1 ≠ []) →
    loadLoop f ((ps.map fun p => p.1 ++ p.2.1).flatten) = .ok (ps.map fun p => p.2.2) := by
  intro ps
  induction ps with
  | nil =>
    intro f _ _ _ _
    cases f <;> rfl
  | cons p ps ih =>
    intro f hf hdec hws hsep
    obtain ⟨f', rfl⟩ : ∃ f', f = f' + 1 := ⟨f - 1, by omega⟩
    have hp' : parseValue (2 * p.1.length + 2) p.1 = .ok (p.2.2, []) :=
      hdec p (List.mem_cons_self _ _)
    obtain ⟨c0, t0, hp1, hw0⟩ := parseValue_head _ _ _ _ hp'
    rw [hp1] at hp'
    cases ps with
    | nil =>
      rw [List.map_cons, List.map_nil, List.flatten_cons, List.flatten_nil,
        List.append_nil, hp1, List.cons_append, loadLoop.eq_def]
      dsimp only
      have htail : headDigit p.2.1 = false := by
        cases hq : p.2.1 with
        | nil => rfl
        | cons c1 t1 =>
          have hw1 : wsChar c1 = true := hws p (List.mem_cons_self _ _) c1
            (by rw [hq]; exact List.mem_cons_self _ _)
          show (digitVal c1).isSome = false
          exact ws_not_digit c1 hw1
      have hfuel : 2 * (c0 :: t0).length + 2 ≤ 2 * (c0 :: (t0 ++ p.2.1)).length + 2 := by
        simp only [List.length_cons, List.length_append]
        omega
      have h2 := parseValue_extend _ _ _ _ hp' _ p.2.1 hfuel htail
      have hext : rawDecode (c0 :: (t0 ++ p.2.1)) = .ok (p.2.2, p.2.1) := by
        show parseValue _ _ = _
        simpa using h2
      rw [hext]
      dsimp only
      rw [skipWs_all p.2.1 (hws p (List.mem_cons_self _ _)),
        show loadLoop f' [] = (.ok [] : Except Err (List Json)) by cases f' <;> rfl]
      rfl
    | cons q qs =>
      have hpsep : p.2.1 ≠ [] := hsep p (by simp)
      obtain ⟨c1, t1, hq1⟩ : ∃ c1 t1, p.2.1 = c1 :: t1 := by
        cases hq : p.2.1 with
        | nil => exact absurd hq hpsep
        | cons a b => exact ⟨a, b, rfl⟩
      have hw1 : wsChar c1 = true := hws p (List.mem_cons_self _ _) c1
        (by rw [hq1]; exact List.mem_cons_self _ _)
      rw [List.map_cons, List.flatten_cons, List.append_assoc, hp1,
        List.cons_append, loadLoop.eq_def]
      dsimp only
      have htail : headDigit
          (p.2.1 ++ (List.map (fun r => r.1 ++ r.2.1) (q :: qs)).flatten) = false := by
        rw [hq1]
        show (digitVal c1).isSome = false
        exact ws_not_digit c1 hw1
      have hfuel : 2 * (c0 :: t0).length + 2 ≤ 2 * (c0 :: (t0 ++
          (p.2.1 ++ (List.map (fun r => r.1 ++ r.2.1) (q :: qs)).flatten))).length + 2 := by
        simp only [List.length_cons, List.length_append]
        omega
      have h2 := parseValue_extend _ _ _ _ hp' _
        (p.2.1 ++ (List.map (fun r => r.1 ++ r.2.1) (q :: qs)).flatten) hfuel htail
      have hext : rawDecode (c0 :: (t0 ++
          (p.2.1 ++ (List.map (fun r => r.1 ++ r.2.1) (q :: qs)).flatten))) =
          .ok (p.2.2, p.2.1 ++ (List.map (fun r => r.1 ++ r.2.1) (q :: qs)).flatten) := by
        show parseValue _ _ = _
        simpa using h2
      rw [hext]
      dsimp only
      have hskip : skipWs (p.2.1 ++ (List.map (fun r => r.1 ++ r.2.1) (q :: qs)).flatten) =
          (List.map (fun r => r.1 ++ r.2.1) (q :: qs)).flatten := by
        rw [skipWs_append_ws _ _ (hws p (List.mem_cons_self _ _))]
        exact skipWs_stream (q :: qs) (fun r hr => hdec r (List.mem_cons_of_mem _ hr))
      rw [hskip]
      have hih := ih f' (by simp only [List.length_cons] at hf ⊢; omega)
        (fun r hr => hdec r (List.mem_cons_of_mem _ hr))
        (fun r hr => hws r (List.mem_cons_of_mem _ hr))
        (fun r hr => hsep r (by rw [List.dropLast_cons₂]; exact List.mem_cons_of_mem _ hr))
      rw [hih]
      rfl

/-- C2 amended: for EVERY blob built as optional leading whitespace followed
by complete JSON value texts each followed by its whitespace separator (the
separator after every value but the last being nonempty), the loader returns
exactly the decoded values in order of appearance, without requiring a single
document or array; in particular every canonically rendered sequence decodes
back, an empty or whitespace-only blob yields the empty sequence, and
self-delimiting values may also sit back-to-back with no separator, as in the
two-object example.  Adjacency is NOT admissible between numerals
(counterexample theorem), which is why the general statement demands the
whitespace separators. -/
theorem C2_decode_concatenated_values :
    (∀ (lead : String) (pieces : List (String × String × Json)),
      (∀ c ∈ lead.data, wsChar c = true) →
      (∀ p ∈ pieces, decodesFullyTo p.1 p.2.2) →
      (∀ p ∈ pieces, ∀ c ∈ (p.2.1).data, wsChar c = true) →
      (∀ p ∈ pieces.dropLast, p.2.1 ≠ "") →
      load_rendered_index (lead ++ String.join (pieces.map fun p => p.1 ++ p.2.1)) =
        .ok (pieces.map fun p => p.2.2)) ∧
    (∀ vs : List Json, load_rendered_index (renderSeq vs) = .ok vs) ∧
    (∀ s : String, s.data.all wsChar = true → load_rendered_index s = .ok []) ∧
    load_rendered_index "\x7b\"a\":1\x7d\x7b\"b\":2\x7d" =
      .ok [Json.obj (.cons "a" (.num 1) .nil), Json.obj (.cons "b" (.num 2) .nil)] := by
  refine ⟨?_, ?_, ?_, by decide⟩
  · intro lead pieces hlead hdec hws hsep
    have hdecL : ∀ r ∈ pieces.map (fun p => ((p.1.data : List Char), (p.2.1).data, p.2.2)),
        rawDecode r.1 = .ok (r.2.2, []) := by
      intro r hr
      simp only [List.mem_map] at hr
      obtain ⟨u, hu, rfl⟩ := hr
      exact hdec u hu
    have hwsL : ∀ r ∈ pieces.map (fun p => ((p.1.data : List Char), (p.2.1).data, p.2.2)),
        ∀ c ∈ r.2.1, wsChar c = true := by
      intro r hr
      simp only [List.mem_map] at hr
      obtain ⟨u, hu, rfl⟩ := hr
      exact hws u hu
    have hsepL : ∀ r ∈ (pieces.map
        (fun p => ((p.1.data : List Char), (p.2.1).data, p.2.2))).dropLast,
        r.2.1 ≠ ([] : List Char) := by
      intro r hr
      rw [← List.map_dropLast] at hr
      simp only [List.mem_map] at hr
      obtain ⟨u, hu, rfl⟩ := hr
      intro hnil
      exact hsep u hu (String.ext hnil)
    have hne : ∀ r ∈ pieces.map (fun p => ((p.1.data : List Char), (p.2.1).data, p.2.2)),
        r.1 ≠ ([] : List Char) := by
      intro r hr hnil
      have h0 := hdecL r hr
      rw [hnil] at h0
      obtain ⟨c, t, hct, _⟩ := parseValue_head _ _ _ _ h0
      exact absurd hct (by simp)
    have hSdata : (lead ++ String.join (pieces.map fun p => p.1 ++ p.2.1)).data =
        lead.data ++ ((pieces.map
          (fun p => ((p.1.data : List Char), (p.2.1).data, p.2.2))).map
            fun r => r.1 ++ r.2.1).flatten := by
      rw [String.data_append, join_data]
      congr 1
      rw [List.map_map, List.map_map]
      congr 1
    show loadLoop ((lead ++ String.join (pieces.map fun p => p.1 ++ p.2.1)).data.length + 1)
      (skipWs (lead ++ String.join (pieces.map fun p => p.1 ++ p.2.1)).data) = _
    rw [hSdata, skipWs_append_ws _ _ hlead, skipWs_stream _ hdecL]
    have hlen : (pieces.map
        (fun p => ((p.1.data : List Char), (p.2.1).data, p.2.2))).length <
        (lead.data ++ ((pieces.map
          (fun p => ((p.1.data : List Char), (p.2.1).data, p.2.2))).map
            fun r => r.1 ++ r.2.1).flatten).length + 1 := by
      have hs := stream_length _ hne
      simp only [List.length_append]
      omega
    rw [loadLoop_pieces _ _ hlen hdecL hwsL hsepL, List.map_map]
    rfl
  · intro vs
    show loadLoop ((renderSeq vs).length + 1) (skipWs (renderSeq vs).data) = .ok vs
    rw [show (renderSeq vs).data = renderSeqL vs from rfl,
      show (renderSeq vs).length = (renderSeqL vs).length from rfl,
      skipWs_renderSeqL]
    exact loadLoop_renderSeqL vs _ (by have := renderSeqL_length vs; omega)
  · intro s hws
    show loadLoop (s.length + 1) (skipWs s.data) = .ok []
    rw [skipWs_all s.data (fun c hc => List.all_eq_true.mp hws c hc)]
    rfl

theorem C2_decode_concatenated_values_w :
    load_rendered_index (" " ++ String.join ([("1", " ", Json.num 1),
      ("\x7b \"a\" : 1 \x7d", "\n", Json.obj (.cons "a" (.num 1) .nil)),
      ("2", "", Json.num 2)].map fun p => p.1 ++ p.2.1)) =
      .ok [Json.num 1, Json.obj (.cons "a" (.num 1) .nil), Json.num 2] :=
  C2_decode_concatenated_values.1 " " [("1", " ", Json.num 1),
    ("\x7b \"a\" : 1 \x7d", "\n", Json.obj (.cons "a" (.num 1) .nil)),
    ("2", "", Json.num 2)] (by decide) (by decide) (by decide) (by decide)
